import Mathlib

/-!
Verification development for the path-inspector repository.

The engine under study is `src/path_inspector/core.py` (the `Inspector`
class and the `FileNode` model) together with `src/path_inspector/utils.py`
(the `GitignoreMatcher` and `find_git_root`).  This file gives a shallow
embedding of that code:

* absolute filesystem paths are lists of components (`APath`);
* a filesystem snapshot is a pure tree (`FSTree` / `FS`); directory entry
  lists carry the OS enumeration order, file nodes carry the raw bytes, the
  decoded text lines (`none` when UTF-8 decoding would fail), and the stat
  data (`size`, `mtime`) that `path.stat()` would report;
* the traversal (`processDir` / `processEntries`), the per-file logic
  (`processFile`, `readContentOpt`, `Inspector.should_read_content`), the
  gitignore matcher (`GitignoreMatcher.is_ignored`, modelled down to a
  faithful model of Python's `fnmatch`), the lazily materialized
  parent-directory chain with its memoization cache (`InspState`,
  `ensureDir`), and the top-level `inspect` are all translated from the
  Python source, statement by statement; mutable aliasing between the
  `dir_nodes_cache` and the under-construction forest is modelled by an
  explicit store of chain entries addressed by absolute path (the cache key
  used by the source), with walk-produced subtrees stored as immutable
  values, exactly matching which Python objects can still be mutated after
  being linked.

Python's `list.sort(key=...)` is a stable sort; it is modelled by a stable
insertion sort (`stableSort`), which agrees with every stable sort for the
total preorder induced by the key.
-/

/-! ## Absolute paths -/

/-- True when the first list is a (not necessarily proper) prefix of the
second; this mirrors when Python's `Path.relative_to` succeeds. -/
def listPre : List String → List String → Bool
  | [], _ => true
  | _ :: _, [] => false
  | a :: as, b :: bs => a == b && listPre as bs

/-- An absolute, already-resolved filesystem path: the list of components
from the filesystem root (so the root itself is `⟨[]⟩`). -/
structure APath where
  parts : List String
deriving DecidableEq

/-- Python `Path.name`: last component, or the empty string at the root. -/
def APath.name (p : APath) : String := p.parts.getLast?.getD ""

/-- Python `Path.parent`: drop the last component (the root is its own
parent). -/
def APath.parent (p : APath) : APath := ⟨p.parts.dropLast⟩

/-- Append one component: `p / s`. -/
def APath.child (p : APath) (s : String) : APath := ⟨p.parts ++ [s]⟩

/-- Python `base in p.parents`: `base` is a proper prefix of `p`. -/
def strictUnder (base p : APath) : Bool :=
  listPre base.parts p.parts && base.parts.length < p.parts.length

/-- Python `p.relative_to(base).as_posix()` restricted to the success case:
`"."` when the two paths are equal, else the remaining components joined
with `/`. -/
def relStr (base p : APath) : String :=
  match p.parts.drop base.parts.length with
  | [] => "."
  | r => String.intercalate "/" r

/-- Python `p.relative_to(base)` as an option: `none` models the
`ValueError` raised when `p` is not lexically under `base`. -/
def relStrOpt (base p : APath) : Option String :=
  if listPre base.parts p.parts then some (relStr base p) else none

/-- The `try: rel = p.relative_to(base).as_posix() except ValueError:
rel = p.name` idiom used throughout `core.py`. -/
def posixRelOr (p base : APath) : String :=
  match relStrOpt base p with
  | some r => r
  | none => p.name

/-! ## A faithful model of Python's fnmatch (POSIX `normcase` is the
identity, so `fnmatch.fnmatch` is `fnmatch.fnmatchcase`). -/

/-- Membership of a character in a bracket-class body, with `a-b` ranges; a
`-` that has no right endpoint is a literal, as in `fnmatch.translate`. -/
def classMember (c : Char) : List Char → Bool
  | a :: '-' :: b :: rest => (a ≤ c && c ≤ b) || classMember c rest
  | a :: rest => (a == c) || classMember c rest
  | [] => false

/-- Scan for the first `]`; returns the class body and the rest of the
pattern.  `none` models an unterminated class (the `[` is then a literal
character). -/
def findRBrk : List Char → Option (List Char × List Char)
  | [] => none
  | c :: rest =>
    if c = ']' then some ([], rest)
    else
      match findRBrk rest with
      | some (body, rem) => some (c :: body, rem)
      | none => none

/-- Worker for `splitClass`, after the optional negation mark has been
consumed: a `]` in first position is a literal member of the class. -/
def splitClassCore (neg : Bool) (cs : List Char) : Option (Bool × List Char × List Char) :=
  match cs with
  | [] => none
  | c :: t =>
    if c = ']' then (findRBrk t).map (fun r => (neg, ']' :: r.1, r.2))
    else (findRBrk (c :: t)).map (fun r => (neg, r.1, r.2))

/-- Split a bracket class right after its opening `[`: negation flag, body,
rest of the pattern.  As in `fnmatch.translate`, a `]` immediately after `[`
or `[!` is a literal member of the class. -/
def splitClass : List Char → Option (Bool × List Char × List Char)
  | [] => none
  | c :: t => if c = '!' then splitClassCore true t else splitClassCore false (c :: t)

/-- Fuel-indexed worker for `globMatch`; every recursive call strictly
shrinks `pattern.length + string.length` (a bracket class consumes at least
the closing bracket), so fuel `pattern.length + string.length + 1` always
suffices and the `0` case is unreachable from `globMatch`. -/
def globMatchF : Nat → List Char → List Char → Bool
  | 0, _, _ => false
  | fuel + 1, p, s =>
    match p with
    | [] => s.isEmpty
    | '*' :: ps =>
      globMatchF fuel ps s ||
        (match s with
         | [] => false
         | _ :: t => globMatchF fuel ('*' :: ps) t)
    | '?' :: ps =>
      (match s with
       | [] => false
       | _ :: t => globMatchF fuel ps t)
    | '[' :: ps =>
      (match splitClass ps with
       | some (neg, body, rest) =>
         (match s with
          | [] => false
          | c :: t => (neg != classMember c body) && globMatchF fuel rest t)
       | none =>
         (match s with
          | '[' :: t => globMatchF fuel ps t
          | _ => false))
    | c :: ps =>
      (match s with
       | c2 :: t => c == c2 && globMatchF fuel ps t
       | [] => false)

/-- Model of `fnmatch.fnmatchcase pattern string`: `*` matches any run of
characters (path separators included), `?` any single character, `[...]` a
character class with optional `!` negation; an unterminated `[` is a
literal. -/
def globMatch (p s : List Char) : Bool :=
  globMatchF (p.length + s.length + 1) p s

/-! ## The gitignore matcher (`utils.py`, class `GitignoreMatcher`) -/

/-- One parsed ignore rule: the raw pattern text and whether the line was
negated with a leading `!`. -/
structure GRule where
  pattern : String
  negated : Bool
deriving DecidableEq

/-- The matcher: a root path plus an ordered list of rule layers, each
tagged with the base path its rules are scoped to. -/
structure GitignoreMatcher where
  root_path : APath
  patterns : List (APath × List GRule)
deriving DecidableEq

/-- Whitespace strip on both ends, as Python `str.strip()`. -/
def stripStr (s : String) : String :=
  ⟨((s.toList.dropWhile Char.isWhitespace).reverse.dropWhile Char.isWhitespace).reverse⟩

/-- Python `str.rstrip("/")`. -/
def rstripSlash (s : String) : String :=
  ⟨((s.toList.reverse.dropWhile (· == '/')).reverse)⟩

/-- First character test on a string. -/
def headIs (c : Char) (s : String) : Bool :=
  match s.toList with
  | [] => false
  | a :: _ => a == c

/-- Python `s[1:]`. -/
def strTail (s : String) : String := ⟨s.toList.drop 1⟩

/-- Parse one line of an ignore file, as in `GitignoreMatcher.add_patterns`:
strip whitespace, skip blank lines and `#` comments, strip a leading `!`
(recording negation), strip trailing `/` directory markers. -/
def parseLine (line : String) : Option GRule :=
  let l := stripStr line
  if l.toList.isEmpty then none
  else if headIs '#' l then none
  else
    let neg := headIs '!' l
    let l1 := if neg then strTail l else l
    let l2 := rstripSlash l1
    some ⟨l2, neg⟩

/-- `GitignoreMatcher.add_patterns`: parse the lines and, when at least one
rule survives parsing, append a layer tagged with `base`. -/
def GitignoreMatcher.addPatterns (m : GitignoreMatcher) (base : APath)
    (lines : List String) : GitignoreMatcher :=
  let parsed := lines.filterMap parseLine
  if parsed.isEmpty then m
  else ⟨m.root_path, m.patterns ++ [(base, parsed)]⟩

/-- The `GitignoreMatcher.__init__` constructor: starts with no layers, then
registers the CLI-supplied patterns (scoped to the root) when the list is
non-empty. -/
def GitignoreMatcher.make (root : APath) (additional : List String) :
    GitignoreMatcher :=
  if additional.isEmpty then ⟨root, []⟩
  else GitignoreMatcher.addPatterns ⟨root, []⟩ root additional

/-- Python `"**" -> "*"` collapse performed by `pattern.replace("**", "*")`
(left-to-right, non-overlapping). -/
def collapseStars : List Char → List Char
  | '*' :: '*' :: rest => '*' :: collapseStars rest
  | c :: rest => c :: collapseStars rest
  | [] => []

/-- The per-rule match test inside `GitignoreMatcher.is_ignored`: after the
`**` collapse, a separator-free pattern is first matched against the entry's
base name; on failure (or for patterns with a separator) the pattern, with a
leading `/` stripped, is matched against the path relative to the layer's
base. -/
def ruleMatches (p : APath) (relToBase : String) (r : GRule) : Bool :=
  let pat := collapseStars r.pattern.toList
  let nameMatched := if pat.contains '/' then false else globMatch pat p.name.toList
  if nameMatched then true
  else
    let pat2 := match pat with
      | '/' :: t => t
      | _ => pat
    globMatch pat2 relToBase.toList

/-- Folding one rule layer over the running ignored-flag, as the inner loop
of `is_ignored` does; a layer whose base is not an ancestor of the path is
skipped (`continue` on the `relative_to` ValueError). -/
def layerFold (p : APath) (flag : Bool) (layer : APath × List GRule) : Bool :=
  match relStrOpt layer.1 p with
  | none => flag
  | some rel => layer.2.foldl (fun f r => if ruleMatches p rel r then !r.negated else f) flag

/-- `GitignoreMatcher.is_ignored`: `false` for paths not under `root_path`;
otherwise fold every layer, in addition order, over a flag starting at
`false`, each matching rule setting it to the negation of its negated
mark. -/
def GitignoreMatcher.is_ignored (m : GitignoreMatcher) (p : APath) : Bool :=
  if listPre m.root_path.parts p.parts then
    m.patterns.foldl (layerFold p) false
  else false

/-! ## Filesystem snapshots -/

/-- A pure filesystem snapshot entry.  Directory entry lists are kept in the
order `os` enumeration (`Path.iterdir`) yields them.  A file carries its raw
bytes, the result of opening it in text mode and calling `readlines()`
(`none` when UTF-8 decoding would fail), and the stat data `st_size` /
`st_mtime` (the latter already formatted as `isoformat()` would); stat
failures are not modelled.  A directory carries its own stat data too, since
`_process_dir` also stats directories. -/
inductive FSTree where
  | file (bytes : List Nat) (textLines : Option (List String)) (sz : Nat) (mtime : String)
  | dir (entries : List (String × FSTree)) (sz : Nat) (mtime : String)

/-- Python `path.is_dir()` for an entry known to exist. -/
def FSTree.isDirT : FSTree → Bool
  | .file .. => false
  | .dir .. => true

def FSTree.entriesOf : FSTree → List (String × FSTree)
  | .file .. => []
  | .dir es _ _ => es

def FSTree.bytesOf : FSTree → List Nat
  | .file b _ _ _ => b
  | .dir .. => []

def FSTree.textLinesOf : FSTree → Option (List String)
  | .file _ t _ _ => t
  | .dir .. => none

def FSTree.szOf : FSTree → Nat
  | .file _ _ s _ => s
  | .dir _ s _ => s

def FSTree.mtimeOf : FSTree → String
  | .file _ _ _ m => m
  | .dir _ _ m => m

/-- A snapshot is the tree rooted at the filesystem root `⟨[]⟩`. -/
structure FS where
  root : FSTree

/-- Look up the named entry in a directory entry list. -/
def lookupEntry (name : String) : List (String × FSTree) → Option FSTree
  | [] => none
  | (n, t) :: rest => if n == name then some t else lookupEntry name rest

/-- Walk a component list down a subtree. -/
def findAtAux : List String → FSTree → Option FSTree
  | [], t => some t
  | _ :: _, .file .. => none
  | c :: rest, .dir es _ _ => (lookupEntry c es).bind (findAtAux rest)

/-- Resolve an absolute path in the snapshot. -/
def FS.find (fs : FS) (p : APath) : Option FSTree := findAtAux p.parts fs.root

/-- Python `path.exists()`. -/
def FS.existsAt (fs : FS) (p : APath) : Bool := (fs.find p).isSome

/-- Python `path.is_file()`. -/
def FS.isFile (fs : FS) (p : APath) : Bool :=
  match fs.find p with
  | some (.file ..) => true
  | _ => false

/-- Python `path.is_dir()`. -/
def FS.isDir (fs : FS) (p : APath) : Bool :=
  match fs.find p with
  | some (.dir ..) => true
  | _ => false

/-- `GitignoreMatcher.add_patterns_from_file`: a silent no-op unless the
path is a regular file; otherwise its lines (with terminators, as
`readlines()` yields them) are registered scoped to the file's parent
directory.  A gitignore file that fails UTF-8 decoding is modelled as a
no-op (in the source that exception would escape; no claim depends on
it). -/
def addPatternsFromFile (fs : FS) (m : GitignoreMatcher) (gp : APath) :
    GitignoreMatcher :=
  match fs.find gp with
  | some (.file _ (some lines) _ _) => m.addPatterns gp.parent lines
  | _ => m

/-- `utils.find_git_root`: walk from the path itself up to the filesystem
root, returning the first directory that contains a `.git` entry. -/
def find_git_root (fs : FS) (p : APath) : Option APath :=
  (((List.range (p.parts.length + 1)).map
      (fun k => APath.mk (p.parts.take (p.parts.length - k)))).find?
    (fun q => fs.existsAt (q.child ".git")))

/-! ## The FileNode model and the Inspector options (`core.py`) -/

/-- The in-memory tree node built by the inspector, with exactly the fields
of the `FileNode` dataclass. -/
inductive FileNode where
  | mk (name : String) (path : APath) (relative_path : String) (is_dir : Bool)
      (size : Option Nat) (modified : Option String) (content : Option String)
      (children : List FileNode) : FileNode

def FileNode.name : FileNode → String
  | .mk n _ _ _ _ _ _ _ => n

def FileNode.path : FileNode → APath
  | .mk _ p _ _ _ _ _ _ => p

def FileNode.relative_path : FileNode → String
  | .mk _ _ r _ _ _ _ _ => r

def FileNode.is_dir : FileNode → Bool
  | .mk _ _ _ d _ _ _ _ => d

def FileNode.size : FileNode → Option Nat
  | .mk _ _ _ _ s _ _ _ => s

def FileNode.modified : FileNode → Option String
  | .mk _ _ _ _ _ m _ _ => m

def FileNode.content : FileNode → Option String
  | .mk _ _ _ _ _ _ c _ => c

def FileNode.children : FileNode → List FileNode
  | .mk _ _ _ _ _ _ _ k => k

/-- The `Inspector` construction options.  `use_gitignore` is the source's
`not no_gitignore`; `extensions` is the already-normalized allow-list the
constructor builds (each entry carrying its leading dot); `max_depth = none`
is Python `None`. -/
structure Inspector where
  include_hidden : Bool
  ignore_patterns : List String
  ignore_dirs : List String
  max_depth : Option Nat
  use_gitignore : Bool
  extensions : List String
  read_all : Bool
  add_metadata : Bool
  head : Nat
  tail : Nat

/-- Python `PurePath.suffix` of a file name: the final `.`-suffix, empty for
names with no dot, a leading-dot-only name, or a trailing dot. -/
def nameSuffix (name : String) : String :=
  let cs := name.toList
  match (cs.reverse.findIdx? (· == '.')) with
  | none => ""
  | some rj =>
    let i := cs.length - 1 - rj
    if 0 < i ∧ i < cs.length - 1 then ⟨cs.drop i⟩ else ""

/-- `Inspector._should_read_content`: `read_all` wins, else the suffix must
be in the extension allow-list (case-sensitive, leading dot included). -/
def Inspector.should_read_content (I : Inspector) (p : APath) : Bool :=
  if I.read_all then true else I.extensions.contains (nameSuffix p.name)

/-- `Inspector._read_content`: `none` when the first 1024 bytes contain a
NUL byte (binary sniff) or when text decoding fails; otherwise the decoded
lines, truncated to the first `head` lines when `head > 0`, else to the last
`tail` lines when `tail > 0`, joined back together. -/
def readContentOpt (I : Inspector) (bytes : List Nat)
    (textLines : Option (List String)) : Option String :=
  if (bytes.take 1024).contains 0 then none
  else
    match textLines with
    | none => none
    | some lines =>
      let ls :=
        if I.head > 0 then lines.take I.head
        else if I.tail > 0 then lines.drop (lines.length - I.tail)
        else lines
      some (String.join ls)

/-- `Inspector._process_file`: build the file node, attach stat metadata
when requested, and attach content when the selection policy picks the
file. -/
def processFile (I : Inspector) (p base : APath) (bytes : List Nat)
    (textLines : Option (List String)) (sz : Nat) (mtime : String) : FileNode :=
  let rel := posixRelOr p base
  let size := if I.add_metadata then some sz else none
  let modified := if I.add_metadata then some mtime else none
  let content := if I.should_read_content p then readContentOpt I bytes textLines else none
  .mk p.name p rel false size modified content []

/-! ## The stable sort used by `_sort_children_recursive` -/

/-- Insert `a` after every element `b` with `le b a`; combined with a
left-to-right fold this is a stable insertion sort. -/
def insertSorted (le : α → α → Bool) (a : α) : List α → List α
  | [] => [a]
  | b :: bs => if le b a then b :: insertSorted le a bs else a :: b :: bs

/-- Stable sort with respect to a total preorder given as a boolean `le`;
this models Python's stable `list.sort`. -/
def stableSort (le : α → α → Bool) (l : List α) : List α :=
  l.foldl (fun acc a => insertSorted le a acc) []

/-- Python `str.lower()` (ASCII model, which is also what the sort key
needs for the names the tests exercise). -/
def strLower (s : String) : String := ⟨s.toList.map Char.toLower⟩

/-- Lexicographic code-point comparison of character lists: Python's `<=`
on strings. -/
def charListLE : List Char → List Char → Bool
  | [], _ => true
  | _ :: _, [] => false
  | a :: as, b :: bs => if a = b then charListLE as bs else decide (a < b)

/-- Python `s1 <= s2`. -/
def strLE (s1 s2 : String) : Bool := charListLE s1.toList s2.toList

/-- The sort key comparison from `_sort_children_recursive`:
`key=lambda p: (not p.is_dir, p.name.lower())` compared lexicographically,
so directories come first and names compare case-insensitively. -/
def nodeLE (a b : FileNode) : Bool :=
  if a.is_dir == b.is_dir then strLE (strLower a.name) (strLower b.name)
  else a.is_dir

/-- The sort key itself: kind (directories first) and lowercased name. -/
def nodeKey (n : FileNode) : Bool × String := (!n.is_dir, strLower n.name)

mutual
/-- `Inspector._sort_children_recursive` (result-returning form): file
nodes are returned unchanged; a directory node's children are sorted by
`nodeLE` and each child is recursively sorted.  The source sorts before
recursing; since the recursion preserves every sort key, sorting after
recursing is the same list (`stableSort_sortNodesList_comm` below makes
this commutation precise). -/
def sortChildrenRec : FileNode → FileNode
  | .mk n p r d s m c kids =>
    if d then .mk n p r d s m c (stableSort nodeLE (sortNodesList kids))
    else .mk n p r d s m c kids
def sortNodesList : List FileNode → List FileNode
  | [] => []
  | t :: ts => sortChildrenRec t :: sortNodesList ts
end

mutual
/-- All nodes of a subtree, the subtree's own root included. -/
def allNodes : FileNode → List FileNode
  | .mk n p r d s m c kids => .mk n p r d s m c kids :: allNodesList kids
def allNodesList : List FileNode → List FileNode
  | [] => []
  | t :: ts => allNodes t ++ allNodesList ts
end

/-- All nodes of a forest (used on the list `inspect` returns). -/
def forestNodes (ts : List FileNode) : List FileNode := allNodesList ts

mutual
/-- Every node of a subtree paired with its depth below (and including) the
subtree root, the root itself at the given starting depth. -/
def nodesWithDepth : FileNode → Nat → List (FileNode × Nat)
  | .mk n p r d s m c kids, d0 => (.mk n p r d s m c kids, d0) :: nodesWithDepthList kids (d0 + 1)
def nodesWithDepthList : List FileNode → Nat → List (FileNode × Nat)
  | [], _ => []
  | t :: ts, d0 => nodesWithDepth t d0 ++ nodesWithDepthList ts d0
end

/-! ## The recursive directory walk (`Inspector._process_dir`).

The source looks entries up on the live filesystem through `path.iterdir()`
and re-stats paths it already holds; the model walks the subtree `t` of the
snapshot located at `path` (so `fs.find path = some t` at every call from
`inspect`), and keeps the snapshot `fs` for the by-path queries the source
makes (the local `.gitignore` lookup).  The matcher is threaded through the
walk because the source mutates one shared instance. -/

mutual
/-- `Inspector._process_dir`: give up above the configured maximum depth or
on an ignored path; otherwise register a local `.gitignore` (when gitignore
processing is on), stat the directory when metadata is requested, and walk
the entry list.  A file passed here would make `iterdir` raise an `OSError`
that the source catches, keeping the node with no children; hence the
`.file` case walks an empty entry list. -/
def processDir (I : Inspector) (fs : FS) (base : APath) :
    FSTree → APath → GitignoreMatcher → Nat → Option FileNode × GitignoreMatcher
  | t, p, m, depth =>
    if (match I.max_depth with
        | some k => decide (depth > k)
        | none => false) then (none, m)
    else if m.is_ignored p then (none, m)
    else
      let m1 := if I.use_gitignore then
          (if fs.existsAt (p.child ".gitignore")
           then addPatternsFromFile fs m (p.child ".gitignore")
           else m)
        else m
      let rel := posixRelOr p base
      let size := if I.add_metadata then some t.szOf else none
      let modified := if I.add_metadata then some t.mtimeOf else none
      let km :=
        match t with
        | .file _ _ _ _ => ([], m1)
        | .dir es _ _ => processEntries I fs base p es m1 depth
      (some (.mk p.name p rel true size modified none km.1), km.2)

def processEntries (I : Inspector) (fs : FS) (base : APath) (parentPath : APath) :
    List (String × FSTree) → GitignoreMatcher → Nat → List FileNode × GitignoreMatcher
  | [], m, _ => ([], m)
  | (name, sub) :: rest, m, depth =>
    if !I.include_hidden && headIs '.' name && name != ".gitignore" then
      processEntries I fs base parentPath rest m depth
    else if sub.isDirT && I.ignore_dirs.contains name then
      processEntries I fs base parentPath rest m depth
    else if m.is_ignored (parentPath.child name) then
      processEntries I fs base parentPath rest m depth
    else if sub.isDirT then
      let cm := processDir I fs base sub (parentPath.child name) m (depth + 1)
      let km := processEntries I fs base parentPath rest cm.2 depth
      ((match cm.1 with
        | some c => c :: km.1
        | none => km.1), km.2)
    else
      let c := processFile I (parentPath.child name) base sub.bytesOf sub.textLinesOf
          sub.szOf sub.mtimeOf
      let km := processEntries I fs base parentPath rest m depth
      (c :: km.1, km.2)
end

/-! ## The top-level `Inspector.inspect`.

The source builds the forest through shared mutable references: the
`dir_nodes_cache` maps absolute paths to lazily synthesized parent-chain
nodes (the virtual root included), and those nodes are the only objects
still mutated after being linked — their `children` receive appends, and a
direct child found by `c.path == path` can receive merged children.  The
model therefore stores the chain nodes in an explicit table addressed by
absolute path (exactly the cache key the source uses; keys are inserted at
most once so addressing by path is faithful), and each chain node's
children list holds either a reference to another chain node or a completed
walk subtree as an immutable value. -/

/-- One child slot of a chain node: a reference to another cache entry (by
its cache key), or a finished subtree produced by `_process_file` /
`_process_dir`. -/
inductive Child where
  | ref (p : APath)
  | tree (t : FileNode)

/-- `c.path` for a child slot (a reference's node has its key as its
path). -/
def childPath : Child → APath
  | .ref q => q
  | .tree t => t.path

/-- A cache entry: the synthesized directory `FileNode` (always `is_dir`,
never carrying size, modified time, or content) with its children. -/
structure ChainEntry where
  key : APath
  name : String
  relative_path : String
  kids : List Child

/-- The mutable state of one `inspect` call: the cache/chain table in
insertion order. -/
structure InspState where
  chain : List ChainEntry

/-- Find the cache entry with the given key. -/
def lookupChain (st : InspState) (p : APath) : Option ChainEntry :=
  st.chain.find? (fun ce => ce.key == p)

/-- Replace the children of the entry keyed `p`. -/
def setKids (st : InspState) (p : APath) (ks : List Child) : InspState :=
  ⟨st.chain.map (fun ce => if ce.key == p then ⟨ce.key, ce.name, ce.relative_path, ks⟩ else ce)⟩

/-- Append one child to the entry keyed `p`. -/
def appendKid (st : InspState) (p : APath) (c : Child) : InspState :=
  match lookupChain st p with
  | some ce => setKids st p (ce.kids ++ [c])
  | none => st

/-- Append many children to the entry keyed `p`. -/
def appendKids (st : InspState) (p : APath) (cs : List Child) : InspState :=
  match lookupChain st p with
  | some ce => setKids st p (ce.kids ++ cs)
  | none => st

/-- `Inspector._ensure_dir_exists`: return (the key of) the cached node when
present; anchor paths that are not below the base at the base's node;
otherwise recursively ensure the parent and append a fresh directory node,
registered in the cache.  The result is the cache key of the returned node.
The `parts = []` case is unreachable from `inspect` (the base is seeded in
the cache, and recursion only descends through paths strictly below the
base); the source would recurse forever there, the model stops at the
base. -/
def ensureDirAux (base : APath) : List String → InspState → APath × InspState
  | rev, st =>
    if (lookupChain st ⟨rev.reverse⟩).isSome then (⟨rev.reverse⟩, st)
    else if ¬ (strictUnder base ⟨rev.reverse⟩ = true) ∧ base ≠ ⟨rev.reverse⟩ then (base, st)
    else
      match rev with
      | [] => (base, st)
      | _ :: revt =>
        (⟨rev.reverse⟩,
          appendKid
            ⟨(ensureDirAux base revt st).2.chain ++
              [⟨⟨rev.reverse⟩, (APath.mk rev.reverse).name, posixRelOr ⟨rev.reverse⟩ base, []⟩]⟩
            (ensureDirAux base revt st).1 (.ref ⟨rev.reverse⟩))

/-- Entry point wrapper for `ensureDirAux`: the recursion peels components
off the end of the path (Python recurses on `dir_path.parent`), which is
structural on the reversed component list. -/
def ensureDir (base : APath) (st : InspState) (dirp : APath) : APath × InspState :=
  ensureDirAux base dirp.parts.reverse st

/-- The matcher `inspect` builds for one input path: scoped to the nearest
git root when gitignore processing is on (else to the path itself, or its
parent for a file input), seeded with the CLI patterns, then the global
gitignore rules, then the git root's own ignore file.  `gg` models the
result of `get_global_gitignore()`. -/
def buildMatcher (I : Inspector) (fs : FS) (gg : Option (APath × List String))
    (path : APath) (isDirPath : Bool) : GitignoreMatcher :=
  if I.use_gitignore then
    let git_root := find_git_root fs path
    let rootM := match git_root with
      | some r => r
      | none => if isDirPath then path else path.parent
    let m0 := GitignoreMatcher.make rootM I.ignore_patterns
    let m1 := match gg with
      | some gb => m0.addPatterns gb.1 gb.2
      | none => m0
    match git_root with
    | some r => addPatternsFromFile fs m1 (r.child ".gitignore")
    | none => m1
  else
    GitignoreMatcher.make (if isDirPath then path else path.parent) I.ignore_patterns

/-- One iteration of the `for path in paths` loop in `Inspector.inspect`:
skip missing paths; for a file input, skip when ignored, ensure the parent
chain and append the file node unless a child with the same absolute path
is already present; for a directory input, walk it, ensure the parent
chain, and either merge the children into the existing node with the same
absolute path (adding only children whose path is not already present) or
append the new subtree. -/
def inspectStep (I : Inspector) (fs : FS) (base : APath)
    (gg : Option (APath × List String)) (st : InspState) (path : APath) : InspState :=
  match fs.find path with
  | none => st
  | some t =>
    let matcher := buildMatcher I fs gg path t.isDirT
    if t.isDirT = false then
      if matcher.is_ignored path then st
      else
        let ps := ensureDir base st path.parent
        let fnode := processFile I path base t.bytesOf t.textLinesOf t.szOf t.mtimeOf
        match lookupChain ps.2 ps.1 with
        | some ce =>
          if ce.kids.any (fun c => childPath c == path) then ps.2
          else appendKid ps.2 ps.1 (.tree fnode)
        | none => ps.2
    else
      match (processDir I fs base t path matcher 0).1 with
      | none => st
      | some dtree =>
        let ps := ensureDir base st path.parent
        match lookupChain ps.2 ps.1 with
        | none => ps.2
        | some ce =>
          match ce.kids.findIdx? (fun c => childPath c == path) with
          | none => appendKid ps.2 ps.1 (.tree dtree)
          | some i =>
            match ce.kids.get? i with
            | none => ps.2
            | some (.ref q) =>
              let exPaths := (match lookupChain ps.2 q with
                | some ceq => ceq.kids.map childPath
                | none => [])
              let newKids := dtree.children.filter (fun c => !(exPaths.contains c.path))
              appendKids ps.2 q (newKids.map Child.tree)
            | some (.tree t0) =>
              let exPaths := t0.children.map FileNode.path
              let newKids := dtree.children.filter (fun c => !(exPaths.contains c.path))
              let t1 : FileNode := .mk t0.name t0.path t0.relative_path t0.is_dir
                t0.size t0.modified t0.content (t0.children ++ newKids)
              setKids ps.2 ps.1 (ce.kids.set i (.tree t1))

/-- Materialize the chain node keyed `p` (and, recursively, the chain nodes
it references) as a `FileNode`.  Chain nodes never carry size, modified
time, or content.  The fuel only serves totality: every reference goes from
a cache key to a strictly longer one, so `chain.length + 1` is always
enough. -/
def toTree (st : InspState) : Nat → APath → FileNode
  | 0, _ => .mk "" ⟨[]⟩ "" true none none none []
  | fuel + 1, p =>
    match lookupChain st p with
    | none => .mk "" ⟨[]⟩ "" true none none none []
    | some ce =>
      .mk ce.name p ce.relative_path true none none none
        (ce.kids.map (fun k =>
          match k with
          | .ref q => toTree st fuel q
          | .tree t => t))

/-- `Inspector.inspect`: seed the cache with the virtual root (named `"."`,
anchored at the invocation base directory), process every input path, then
recursively sort the whole merged forest and return the virtual root's
children.  Input paths are taken as already resolved absolute paths
(`path.resolve()` is the identity in the model); `gg` is the global
gitignore information the source obtains from `get_global_gitignore()`. -/
def inspect (I : Inspector) (fs : FS) (base : APath)
    (gg : Option (APath × List String)) (paths : List APath) : List FileNode :=
  let st0 : InspState := ⟨[⟨base, ".", ".", []⟩]⟩
  let stF := paths.foldl (inspectStep I fs base gg) st0
  (sortChildrenRec (toTree stF (stF.chain.length + 1) base)).children

/-! ## Concrete fixtures for the per-claim witnesses and counterexamples -/

/-- An inspector with every feature off (no gitignore processing, no
metadata, no content reading, no depth limit). -/
def plainInspector : Inspector := ⟨false, [], [], none, false, [], false, false, 0, 0⟩

/-- `plainInspector` with `max_depth = 0`. -/
def depth0Inspector : Inspector := ⟨false, [], [], some 0, false, [], false, false, 0, 0⟩

/-- `plainInspector` with the directory name `"nm"` blocklisted. -/
def blockNmInspector : Inspector := ⟨false, [], ["nm"], none, false, [], false, false, 0, 0⟩

/-- `plainInspector` with the CLI ignore pattern `*.log`. -/
def logIgnoreInspector : Inspector :=
  ⟨false, ["*.log"], [], none, false, [], false, false, 0, 0⟩

/-- `plainInspector` with `read_all` on. -/
def readAllInspector : Inspector := ⟨false, [], [], none, false, [], true, false, 0, 0⟩

/-- `plainInspector` with `head = 3`. -/
def head3Inspector : Inspector := ⟨false, [], [], none, false, [], false, false, 3, 0⟩

/-- Snapshot `ws/a/b` (nested directories only). -/
def fsNested : FS :=
  ⟨.dir [("ws", .dir [("a", .dir [("b", .dir [] 0 "t")] 0 "t")] 0 "t")] 0 "t"⟩

/-- The subtree `ws` holding one plain file. -/
def wsFileTree : FSTree := .dir [("f.txt", .file [104] (some ["hi\n"]) 3 "t")] 0 "t"

def fsWsFile : FS := ⟨.dir [("ws", wsFileTree)] 0 "t"⟩

/-- A rule-free matcher rooted at `ws`. -/
def wsMatcher : GitignoreMatcher := GitignoreMatcher.make ⟨["ws"]⟩ []

/-- The subtree `ws` holding only an ignore file. -/
def wsGitignoreTree : FSTree := .dir [(".gitignore", .file [] (some []) 0 "t")] 0 "t"

def fsWsGitignore : FS := ⟨.dir [("ws", wsGitignoreTree)] 0 "t"⟩

/-- Snapshot with a hidden directory `ws/.hid`. -/
def fsWsHidden : FS := ⟨.dir [("ws", .dir [(".hid", .dir [] 0 "t")] 0 "t")] 0 "t"⟩

/-- The subtree `ws` holding one subdirectory. -/
def wsSubTree : FSTree := .dir [("sub", .dir [] 0 "t")] 0 "t"

def fsWsSub : FS := ⟨.dir [("ws", wsSubTree)] 0 "t"⟩

/-- Snapshot with a blocklisted-name directory `ws/nm`. -/
def fsWsNm : FS := ⟨.dir [("ws", .dir [("nm", .dir [] 0 "t")] 0 "t")] 0 "t"⟩

/-- Snapshot with a file below a hidden and a blocklisted-name directory. -/
def fsDeepHidden : FS :=
  ⟨.dir [(".hid", .dir [("nm", .dir [("f.txt", .file [104] (some ["x\n"]) 2 "t")] 0 "t")]
    0 "t")] 0 "t"⟩

/-- Snapshot with a file matching the `*.log` ignore pattern. -/
def fsLog : FS :=
  ⟨.dir [("d", .dir [("x.log", .file [104] (some ["x\n"]) 2 "t")] 0 "t")] 0 "t"⟩

/-- The node `_process_dir` produces for `wsFileTree` (also what `inspect`
returns for it). -/
def wsFileNode : FileNode := .mk "ws" ⟨["ws"]⟩ "ws" true none none none
  [.mk "f.txt" ⟨["ws", "f.txt"]⟩ "ws/f.txt" false none none none []]

/-- The node `_process_dir` produces for `wsGitignoreTree`. -/
def wsGitignoreNode : FileNode := .mk "ws" ⟨["ws"]⟩ "ws" true none none none
  [.mk ".gitignore" ⟨["ws", ".gitignore"]⟩ "ws/.gitignore" false none none none []]

/-- The node `_process_dir` produces for `wsSubTree`. -/
def wsSubNode : FileNode := .mk "ws" ⟨["ws"]⟩ "ws" true none none none
  [.mk "sub" ⟨["ws", "sub"]⟩ "ws/sub" true none none none []]

/-- Two walk results differing only in children order, with distinct sort
keys. -/
def leafA : FileNode := .mk "A" ⟨["r", "A"]⟩ "A" false none none none []

def leafB : FileNode := .mk "b" ⟨["r", "b"]⟩ "b" false none none none []

def permTreeL : FileNode := .mk "r" ⟨["r"]⟩ "." true none none none [leafA, leafB]

def permTreeR : FileNode := .mk "r" ⟨["r"]⟩ "." true none none none [leafB, leafA]

/-! ## Order facts about the sort comparison -/

theorem charListLE_total : ∀ a b : List Char, (charListLE a b || charListLE b a) = true := by
  intro a
  induction a with
  | nil => intro b; simp [charListLE]
  | cons x xs ih =>
    intro b
    cases b with
    | nil => simp [charListLE]
    | cons y ys =>
      by_cases hxy : x = y
      · subst hxy
        simp [charListLE, ih ys]
      · have hne : y ≠ x := fun h => hxy h.symm
        rcases lt_or_gt_of_ne hxy with h | h
        · simp [charListLE, hxy, hne, h]
        · simp [charListLE, hxy, hne, h]

theorem charListLE_trans : ∀ a b c : List Char, charListLE a b = true →
    charListLE b c = true → charListLE a c = true := by
  intro a
  induction a with
  | nil => intro b c _ _; simp [charListLE]
  | cons x xs ih =>
    intro b c h1 h2
    cases b with
    | nil => simp [charListLE] at h1
    | cons y ys =>
      cases c with
      | nil => simp [charListLE] at h2
      | cons z zs =>
        by_cases hxy : x = y
        · subst hxy
          by_cases hyz : x = z
          · subst hyz
            simp [charListLE] at h1 h2 ⊢
            exact ih ys zs h1 h2
          · simp [charListLE, hyz] at h1 h2 ⊢
            exact h2
        · by_cases hyz : y = z
          · subst hyz
            simp [charListLE, hxy] at h1 ⊢
            exact h1
          · simp [charListLE, hxy, hyz] at h1 h2
            have hxz : x < z := lt_trans h1 h2
            simp [charListLE, ne_of_lt hxz, hxz]

theorem strLE_total (a b : String) : (strLE a b || strLE b a) = true :=
  charListLE_total a.toList b.toList

theorem strLE_trans (a b c : String) (h1 : strLE a b = true) (h2 : strLE b c = true) :
    strLE a c = true :=
  charListLE_trans a.toList b.toList c.toList h1 h2

theorem nodeLE_total (a b : FileNode) : (nodeLE a b || nodeLE b a) = true := by
  unfold nodeLE
  cases ha : a.is_dir <;> cases hb : b.is_dir <;> simp [strLE_total]

theorem nodeLE_trans (a b c : FileNode) (h1 : nodeLE a b = true)
    (h2 : nodeLE b c = true) : nodeLE a c = true := by
  unfold nodeLE at *
  cases ha : a.is_dir <;> cases hb : b.is_dir <;> cases hc : c.is_dir <;>
    simp_all <;> exact strLE_trans _ _ _ h1 h2

theorem insertSorted_perm (le : α → α → Bool) (a : α) :
    ∀ l : List α, (insertSorted le a l).Perm (a :: l) := by
  intro l
  induction l with
  | nil => simp [insertSorted]
  | cons b bs ih =>
    rw [insertSorted]
    split
    · exact ((ih.cons b).trans (List.Perm.swap a b bs)).symm.symm
    · exact List.Perm.refl _

theorem stableSort_aux_perm (le : α → α → Bool) :
    ∀ (l acc : List α), (l.foldl (fun acc a => insertSorted le a acc) acc).Perm (acc ++ l) := by
  intro l
  induction l with
  | nil => intro acc; simp
  | cons a as ih =>
    intro acc
    rw [List.foldl_cons]
    refine (ih (insertSorted le a acc)).trans ?_
    refine (List.Perm.append_right as (insertSorted_perm le a acc)).trans ?_
    have : (a :: acc) ++ as = a :: (acc ++ as) := rfl
    rw [this]
    exact (List.perm_middle).symm

theorem stableSort_perm (le : α → α → Bool) (l : List α) :
    (stableSort le l).Perm l := by
  simpa [stableSort] using stableSort_aux_perm le l []

theorem mem_stableSort (le : α → α → Bool) (l : List α) (x : α) :
    x ∈ stableSort le l ↔ x ∈ l :=
  (stableSort_perm le l).mem_iff

theorem insertSorted_pairwise (le : α → α → Bool)
    (htr : ∀ a b c, le a b = true → le b c = true → le a c = true)
    (hto : ∀ a b, (le a b || le b a) = true) (a : α) :
    ∀ l : List α, l.Pairwise (fun x y => le x y = true) →
      (insertSorted le a l).Pairwise (fun x y => le x y = true) := by
  intro l
  induction l with
  | nil => intro _; simp [insertSorted]
  | cons b bs ih =>
    intro h
    rw [List.pairwise_cons] at h
    obtain ⟨hb, hbs⟩ := h
    rw [insertSorted]
    split
    · next hba =>
      rw [List.pairwise_cons]
      refine ⟨?_, ih hbs⟩
      intro x hx
      rw [(insertSorted_perm le a bs).mem_iff, List.mem_cons] at hx
      rcases hx with rfl | hx
      · exact hba
      · exact hb x hx
    · next hba =>
      have hab : le a b = true := by
        have := hto a b
        rw [Bool.or_eq_true] at this
        rcases this with h | h
        · exact h
        · exact absurd h (by simpa using hba)
      rw [List.pairwise_cons]
      constructor
      · intro x hx
        rw [List.mem_cons] at hx
        rcases hx with rfl | hx
        · exact hab
        · exact htr a b x hab (hb x hx)
      · rw [List.pairwise_cons]
        exact ⟨hb, hbs⟩

theorem stableSort_aux_pairwise (le : α → α → Bool)
    (htr : ∀ a b c, le a b = true → le b c = true → le a c = true)
    (hto : ∀ a b, (le a b || le b a) = true) :
    ∀ (l acc : List α), acc.Pairwise (fun x y => le x y = true) →
      (l.foldl (fun acc a => insertSorted le a acc) acc).Pairwise (fun x y => le x y = true) := by
  intro l
  induction l with
  | nil => intro acc h; simpa using h
  | cons a as ih =>
    intro acc h
    rw [List.foldl_cons]
    exact ih _ (insertSorted_pairwise le htr hto a acc h)

theorem stableSort_pairwise (le : α → α → Bool)
    (htr : ∀ a b c, le a b = true → le b c = true → le a c = true)
    (hto : ∀ a b, (le a b || le b a) = true) (l : List α) :
    (stableSort le l).Pairwise (fun x y => le x y = true) :=
  stableSort_aux_pairwise le htr hto l [] (by simp)

/-! ## Structural helpers on FileNode trees -/

theorem FileNode.indOn (P : FileNode → Prop)
    (h : ∀ n p r d s m c kids, (∀ t ∈ kids, P t) → P (.mk n p r d s m c kids)) :
    ∀ t, P t
  | .mk n p r d s m c kids => h n p r d s m c kids (fun t _ => FileNode.indOn P h t)
termination_by t => sizeOf t
decreasing_by
  have := List.sizeOf_lt_of_mem (by assumption : t ∈ kids)
  simp only [FileNode.mk.sizeOf_spec]
  omega

theorem allNodesList_append (l1 l2 : List FileNode) :
    allNodesList (l1 ++ l2) = allNodesList l1 ++ allNodesList l2 := by
  induction l1 with
  | nil => simp [allNodesList]
  | cons t ts ih => simp [allNodesList, ih]

theorem mem_allNodesList (n : FileNode) :
    ∀ L : List FileNode, n ∈ allNodesList L ↔ ∃ t ∈ L, n ∈ allNodes t := by
  intro L
  induction L with
  | nil => simp [allNodesList]
  | cons t ts ih =>
    rw [allNodesList]
    simp only [List.mem_append, ih, List.mem_cons]
    constructor
    · rintro (h | ⟨t2, ht2, hn⟩)
      · exact ⟨t, Or.inl rfl, h⟩
      · exact ⟨t2, Or.inr ht2, hn⟩
    · rintro ⟨t2, ht2 | ht2, hn⟩
      · subst ht2; exact Or.inl hn
      · exact Or.inr ⟨t2, ht2, hn⟩

theorem self_mem_allNodes (t : FileNode) : t ∈ allNodes t := by
  cases t
  rw [allNodes]
  exact List.mem_cons_self _ _

theorem sortNodesList_eq_map : ∀ L : List FileNode,
    sortNodesList L = L.map sortChildrenRec := by
  intro L
  induction L with
  | nil => simp [sortNodesList]
  | cons t ts ih => simp [sortNodesList, ih]

theorem sortChildrenRec_mk (n : String) (p : APath) (r : String) (d : Bool)
    (s : Option Nat) (m : Option String) (c : Option String) (kids : List FileNode) :
    sortChildrenRec (.mk n p r d s m c kids) =
      if d then FileNode.mk n p r d s m c (stableSort nodeLE (sortNodesList kids))
      else FileNode.mk n p r d s m c kids := by
  rw [sortChildrenRec]

/-- All node fields except the children list. -/
def FileNode.sig (n : FileNode) :
    String × APath × String × Bool × Option Nat × Option String × Option String :=
  (n.name, n.path, n.relative_path, n.is_dir, n.size, n.modified, n.content)

theorem sortChildrenRec_sig (t : FileNode) : (sortChildrenRec t).sig = t.sig := by
  cases t with
  | mk n p r d s m c kids =>
    rw [sortChildrenRec_mk]
    cases d <;> simp [FileNode.sig, FileNode.name, FileNode.path, FileNode.relative_path,
      FileNode.is_dir, FileNode.size, FileNode.modified, FileNode.content]

theorem sortChildrenRec_is_dir (t : FileNode) :
    (sortChildrenRec t).is_dir = t.is_dir := by
  cases t with
  | mk n p r d s m c kids =>
    rw [sortChildrenRec_mk]; cases d <;> simp [FileNode.is_dir]

theorem sortChildrenRec_name (t : FileNode) :
    (sortChildrenRec t).name = t.name := by
  cases t with
  | mk n p r d s m c kids =>
    rw [sortChildrenRec_mk]; cases d <;> simp [FileNode.name]

theorem nodeLE_sortChildrenRec (a b : FileNode) :
    nodeLE (sortChildrenRec a) (sortChildrenRec b) = nodeLE a b := by
  unfold nodeLE
  rw [sortChildrenRec_is_dir, sortChildrenRec_is_dir, sortChildrenRec_name,
    sortChildrenRec_name]

mutual
/-- File nodes have no children, recursively: an invariant of every forest
the inspector builds (`_process_file` always creates leaf nodes). -/
def filesChildless : FileNode → Bool
  | .mk _ _ _ d _ _ _ kids => (d || kids.isEmpty) && filesChildlessList kids
def filesChildlessList : List FileNode → Bool
  | [] => true
  | t :: ts => filesChildless t && filesChildlessList ts
end

theorem filesChildlessList_mem {L : List FileNode} (h : filesChildlessList L = true) :
    ∀ t ∈ L, filesChildless t = true := by
  induction L with
  | nil => intro t ht; simp at ht
  | cons x xs ih =>
    rw [filesChildlessList, Bool.and_eq_true] at h
    intro t ht
    rw [List.mem_cons] at ht
    rcases ht with rfl | ht
    · exact h.1
    · exact ih h.2 t ht

theorem filesChildlessList_append {l1 l2 : List FileNode} :
    filesChildlessList (l1 ++ l2) = (filesChildlessList l1 && filesChildlessList l2) := by
  induction l1 with
  | nil => simp [filesChildlessList]
  | cons x xs ih => simp [filesChildlessList, ih, Bool.and_assoc]

/-- The children ordering stated by the specification: directory children
precede file children, and within each kind names ascend by
case-insensitive comparison. -/
def specLE (a b : FileNode) : Prop :=
  (a.is_dir = true ∧ b.is_dir = false) ∨
    (a.is_dir = b.is_dir ∧ strLE (strLower a.name) (strLower b.name) = true)

theorem nodeLE_iff_specLE (a b : FileNode) : nodeLE a b = true ↔ specLE a b := by
  unfold nodeLE specLE
  cases ha : a.is_dir <;> cases hb : b.is_dir <;> simp

/-- Core of C3: after the recursive sort, every directory node anywhere in
the tree has `nodeLE`-sorted children; file nodes hide no children thanks
to `filesChildless`. -/
theorem sorted_after_sortChildrenRec :
    ∀ t : FileNode, filesChildless t = true →
      ∀ n ∈ allNodes (sortChildrenRec t), n.is_dir = true →
        n.children.Pairwise (fun a b => nodeLE a b = true) := by
  intro t
  induction t using FileNode.indOn with
  | h nm p r d s m c kids ih =>
    intro hfc n hn hdir
    rw [filesChildless, Bool.and_eq_true] at hfc
    rw [sortChildrenRec_mk] at hn
    cases hd : d with
    | false =>
      rw [hd] at hn
      rw [if_neg Bool.false_ne_true] at hn
      have hkids : kids = [] := by
        rw [hd] at hfc
        simpa using hfc.1
      subst hkids
      simp only [allNodes, allNodesList] at hn
      rw [List.mem_cons] at hn
      rcases hn with rfl | hn
      · simp [FileNode.children]
      · simp at hn
    | true =>
      rw [hd] at hn
      rw [if_pos rfl] at hn
      simp only [allNodes] at hn
      rw [List.mem_cons] at hn
      rcases hn with rfl | hn
      · simp only [FileNode.children]
        exact stableSort_pairwise nodeLE nodeLE_trans nodeLE_total _
      · rw [mem_allNodesList] at hn
        obtain ⟨t2, ht2, hnmem⟩ := hn
        rw [mem_stableSort, sortNodesList_eq_map, List.mem_map] at ht2
        obtain ⟨k, hk, rfl⟩ := ht2
        exact ih k hk (filesChildlessList_mem hfc.2 k hk) n hnmem hdir

/-! ## Claim C4: the is_ignored contract -/

/-- The specification's description of `IsIgnored`: skip every layer whose
base is not an ancestor of the path, then fold the remaining rules in
order over a flag starting `false`, each match setting it to the negation
of the rule's negated mark. -/
def isIgnoredSpec (m : GitignoreMatcher) (p : APath) : Bool :=
  if listPre m.root_path.parts p.parts = false then false
  else
    (m.patterns.filterMap (fun layer =>
        (relStrOpt layer.1 p).map (fun rel => (rel, layer.2)))).foldl
      (fun flag rl =>
        rl.2.foldl (fun f r => if ruleMatches p rl.1 r then !r.negated else f) flag)
      false

theorem foldl_layerFold_filterMap (p : APath) :
    ∀ (L : List (APath × List GRule)) (flag : Bool),
      L.foldl (layerFold p) flag =
        (L.filterMap (fun layer =>
            (relStrOpt layer.1 p).map (fun rel => (rel, layer.2)))).foldl
          (fun flag rl =>
            rl.2.foldl (fun f r => if ruleMatches p rl.1 r then !r.negated else f) flag)
          flag := by
  intro L
  induction L with
  | nil => intro flag; rfl
  | cons layer rest ih =>
    intro flag
    rw [List.foldl_cons, List.filterMap_cons]
    cases hre : relStrOpt layer.1 p with
    | none =>
      have : layerFold p flag layer = flag := by
        unfold layerFold
        rw [hre]
      rw [this, Option.map_none', ih]
    | some rel =>
      have : layerFold p flag layer =
          layer.2.foldl (fun f r => if ruleMatches p rel r then !r.negated else f) flag := by
        unfold layerFold
        rw [hre]
      rw [this, Option.map_some', List.foldl_cons, ih]

/-! ## Walk properties shared by the depth, hidden, and blocklist claims -/

theorem APath.child_name (p : APath) (s : String) : (p.child s).name = s := by
  unfold APath.child APath.name
  simp

theorem mem_allNodes_iff (n t : FileNode) :
    n ∈ allNodes t ↔ n = t ∨ n ∈ allNodesList t.children := by
  cases t
  rw [allNodes]
  simp [FileNode.children, List.mem_cons]

mutual
theorem processDir_walkProps (I : Inspector) (fs : FS) (base : APath) :
    ∀ (t : FSTree) (p : APath) (m : GitignoreMatcher) (depth : Nat) (node : FileNode),
      (processDir I fs base t p m depth).1 = some node →
      node.path = p ∧ node.is_dir = true ∧ node.name = p.name ∧
      filesChildless node = true ∧
      (∀ n ∈ allNodesList node.children,
        (I.include_hidden = false → headIs '.' n.name = true → n.name = ".gitignore") ∧
        (n.is_dir = true → I.ignore_dirs.contains n.name = false)) ∧
      (∀ k, I.max_depth = some k → ∀ x ∈ nodesWithDepth node depth,
        x.2 ≤ k + 1 ∧ (x.1.is_dir = true → x.2 ≤ k))
  | t, p, m, depth, node, h => by
    rw [processDir] at h
    by_cases hg : (match I.max_depth with
        | some k => decide (depth > k)
        | none => false) = true
    · rw [if_pos hg] at h
      simp at h
    · rw [if_neg hg] at h
      by_cases hig : m.is_ignored p = true
      · rw [if_pos hig] at h
        simp at h
      · rw [if_neg hig] at h
        simp only [] at h
        cases t with
        | file b tl sz mt =>
          simp only [Option.some.injEq] at h
          subst h
          refine ⟨rfl, rfl, rfl, by simp [filesChildless, filesChildlessList], ?_, ?_⟩
          · intro n hn
            simp only [FileNode.children, allNodesList] at hn
            exact absurd hn (List.not_mem_nil n)
          · intro k hk x hx
            simp only [nodesWithDepth, FileNode.children, nodesWithDepthList] at hx
            rw [List.mem_cons] at hx
            rcases hx with rfl | hx
            · have hd : depth ≤ k := by
                rw [hk] at hg
                simp at hg
                omega
              exact ⟨by omega, fun _ => hd⟩
            · exact absurd hx (List.not_mem_nil x)
        | dir es sz mt =>
          simp only [Option.some.injEq] at h
          subst h
          have hpe := processEntries_walkProps I fs base es p
            (if I.use_gitignore then
              (if fs.existsAt (p.child ".gitignore")
               then addPatternsFromFile fs m (p.child ".gitignore")
               else m)
             else m) depth
          refine ⟨rfl, rfl, rfl, ?_, ?_, ?_⟩
          · rw [filesChildless]
            simp only [Bool.true_or, Bool.true_and]
            exact hpe.1
          · intro n hn
            simp only [FileNode.children] at hn
            exact hpe.2.1 n hn
          · intro k hk x hx
            have hd : depth ≤ k := by
              rw [hk] at hg
              simp at hg
              omega
            simp only [nodesWithDepth, FileNode.children] at hx
            rw [List.mem_cons] at hx
            rcases hx with rfl | hx
            · exact ⟨by omega, fun _ => hd⟩
            · exact hpe.2.2 k hk hd x hx

theorem processEntries_walkProps (I : Inspector) (fs : FS) (base : APath) :
    ∀ (es : List (String × FSTree)) (pp : APath) (m : GitignoreMatcher) (depth : Nat),
      filesChildlessList (processEntries I fs base pp es m depth).1 = true ∧
      (∀ n ∈ allNodesList (processEntries I fs base pp es m depth).1,
        (I.include_hidden = false → headIs '.' n.name = true → n.name = ".gitignore") ∧
        (n.is_dir = true → I.ignore_dirs.contains n.name = false)) ∧
      (∀ k, I.max_depth = some k → depth ≤ k →
        ∀ x ∈ nodesWithDepthList (processEntries I fs base pp es m depth).1 (depth + 1),
          x.2 ≤ k + 1 ∧ (x.1.is_dir = true → x.2 ≤ k))
  | [], pp, m, depth => by
    refine ⟨by simp [processEntries, filesChildlessList], ?_, ?_⟩
    · intro n hn
      simp [processEntries, allNodesList] at hn
    · intro k hk hd x hx
      simp [processEntries, nodesWithDepthList] at hx
  | (name, sub) :: rest, pp, m, depth => by
    rw [processEntries]
    by_cases h1 : (!I.include_hidden && headIs '.' name && name != ".gitignore") = true
    · rw [if_pos h1]
      exact processEntries_walkProps I fs base rest pp m depth
    · rw [if_neg h1]
      by_cases h2 : (sub.isDirT && I.ignore_dirs.contains name) = true
      · rw [if_pos h2]
        exact processEntries_walkProps I fs base rest pp m depth
      · rw [if_neg h2]
        by_cases h3 : m.is_ignored (pp.child name) = true
        · rw [if_pos h3]
          exact processEntries_walkProps I fs base rest pp m depth
        · rw [if_neg h3]
          have hhid : I.include_hidden = false → headIs '.' name = true → name = ".gitignore" := by
            intro hih hdot
            by_contra hne
            apply h1
            simp [hih, hdot]
            exact hne
          by_cases h4 : sub.isDirT = true
          · rw [if_pos h4]
            have hnoblock : I.ignore_dirs.contains name = false := by
              by_contra hc
              apply h2
              simp at hc
              simp [h4, hc]
            cases hc : (processDir I fs base sub (pp.child name) m (depth + 1)).1 with
            | none =>
              simp only [hc]
              exact processEntries_walkProps I fs base rest pp
                (processDir I fs base sub (pp.child name) m (depth + 1)).2 depth
            | some c =>
              simp only [hc]
              have hpd := processDir_walkProps I fs base sub (pp.child name) m (depth + 1) c hc
              have hpe := processEntries_walkProps I fs base rest pp
                (processDir I fs base sub (pp.child name) m (depth + 1)).2 depth
              obtain ⟨hcp, hcd, hcn, hcfc, hcdesc, hcdep⟩ := hpd
              refine ⟨?_, ?_, ?_⟩
              · rw [filesChildlessList, Bool.and_eq_true]
                exact ⟨hcfc, hpe.1⟩
              · intro n hn
                rw [allNodesList, List.mem_append] at hn
                rcases hn with hn | hn
                · rw [mem_allNodes_iff] at hn
                  rcases hn with rfl | hn2
                  · have hcname : n.name = name := by
                      rw [hcn, APath.child_name]
                    constructor
                    · intro hih hdot
                      rw [hcname] at hdot ⊢
                      exact hhid hih hdot
                    · intro _
                      rw [hcname]
                      exact hnoblock
                  · exact hcdesc n hn2
                · exact hpe.2.1 n hn
              · intro k hk hd x hx
                rw [nodesWithDepthList, List.mem_append] at hx
                rcases hx with hx | hx
                · exact hcdep k hk x hx
                · exact hpe.2.2 k hk hd x hx
          · rw [if_neg h4]
            cases hsub : sub with
            | dir ses ssz smt => rw [hsub] at h4; simp [FSTree.isDirT] at h4
            | file sb stl ssz smt =>
              have hpe := processEntries_walkProps I fs base rest pp m depth
              refine ⟨?_, ?_, ?_⟩
              · rw [filesChildlessList, Bool.and_eq_true]
                refine ⟨by simp [processFile, filesChildless, filesChildlessList], hpe.1⟩
              · intro n hn
                rw [allNodesList, List.mem_append] at hn
                rcases hn with hn | hn
                · simp only [processFile, allNodes, allNodesList] at hn
                  rw [List.mem_cons] at hn
                  rcases hn with rfl | hn
                  · constructor
                    · intro hih hdot
                      rw [FileNode.name] at hdot ⊢
                      rw [APath.child_name] at hdot ⊢
                      exact hhid hih hdot
                    · intro hdirn
                      rw [FileNode.is_dir] at hdirn
                      simp at hdirn
                  · exact absurd hn (List.not_mem_nil n)
                · exact hpe.2.1 n hn
              · intro k hk hd x hx
                rw [nodesWithDepthList, List.mem_append] at hx
                rcases hx with hx | hx
                · simp only [processFile, nodesWithDepth, FileNode.children,
                    nodesWithDepthList] at hx
                  rw [List.mem_cons] at hx
                  rcases hx with rfl | hx
                  · refine ⟨by omega, ?_⟩
                    intro hdirn
                    rw [FileNode.is_dir] at hdirn
                    simp at hdirn
                  · exact absurd hx (List.not_mem_nil x)
                · exact hpe.2.2 k hk hd x hx
end

/-! ## Claim C9: enumeration order and the final sort -/

/-- Two trees that differ only by a permutation of children lists (the
effect of a different OS enumeration order on the walk): all node fields
agree, and the children lists are pointwise related up to a permutation.
File nodes (which the recursive sort does not descend into) must carry the
same children; in every forest the inspector builds they are leaves. -/
inductive TreePerm : FileNode → FileNode → Prop where
  | step : ∀ (n : String) (p : APath) (r : String) (d : Bool) (s : Option Nat)
      (m c : Option String) (kids1 l kids2 : List FileNode),
      kids1.length = l.length →
      (∀ (i : Nat) (h1 : i < kids1.length) (h2 : i < l.length),
        TreePerm (kids1.get ⟨i, h1⟩) (l.get ⟨i, h2⟩)) →
      l.Perm kids2 →
      (d = false → kids1 = kids2) →
      TreePerm (.mk n p r d s m c kids1) (.mk n p r d s m c kids2)

/-- No two list members share a sort key. -/
def nodupKeys : List FileNode → Bool
  | [] => true
  | t :: ts => !((ts.map nodeKey).contains (nodeKey t)) && nodupKeys ts

mutual
/-- Throughout the tree, no two siblings share a sort key (same kind and
case-insensitively equal name). -/
def keysOkD : FileNode → Bool
  | .mk _ _ _ _ _ _ _ kids => nodupKeys kids && keysOkL kids
def keysOkL : List FileNode → Bool
  | [] => true
  | t :: ts => keysOkD t && keysOkL ts
end

theorem listPre_refl : ∀ xs : List String, listPre xs xs = true := by
  intro xs
  induction xs with
  | nil => rfl
  | cons a as ih => simp [listPre, ih]

theorem listPre_length : ∀ xs ys : List String, listPre xs ys = true →
    xs.length ≤ ys.length := by
  intro xs
  induction xs with
  | nil => intro ys _; simp
  | cons a as ih =>
    intro ys h
    cases ys with
    | nil => simp [listPre] at h
    | cons b bs =>
      rw [listPre, Bool.and_eq_true] at h
      have := ih bs h.2
      simp
      omega

theorem listPre_full : ∀ xs ys : List String, listPre xs ys = true →
    ys.length ≤ xs.length → xs = ys := by
  intro xs
  induction xs with
  | nil =>
    intro ys _ hl
    cases ys with
    | nil => rfl
    | cons b bs => simp at hl
  | cons a as ih =>
    intro ys h hl
    cases ys with
    | nil => simp [listPre] at h
    | cons b bs =>
      rw [listPre, Bool.and_eq_true, beq_iff_eq] at h
      rw [h.1, ih bs h.2 (by simp at hl; omega)]

theorem listPre_trans : ∀ xs ys zs : List String, listPre xs ys = true →
    listPre ys zs = true → listPre xs zs = true := by
  intro xs
  induction xs with
  | nil => intro ys zs _ _; rfl
  | cons a as ih =>
    intro ys zs h1 h2
    cases ys with
    | nil => simp [listPre] at h1
    | cons b bs =>
      cases zs with
      | nil => simp [listPre] at h2
      | cons c cs =>
        rw [listPre, Bool.and_eq_true, beq_iff_eq] at h1 h2 ⊢
        exact ⟨h1.1.trans h2.1, ih bs cs h1.2 h2.2⟩

theorem listPre_eq_take : ∀ xs ys : List String, listPre xs ys = true →
    xs = ys.take xs.length := by
  intro xs
  induction xs with
  | nil => intro ys _; rfl
  | cons a as ih =>
    intro ys h
    cases ys with
    | nil => simp [listPre] at h
    | cons b bs =>
      rw [listPre, Bool.and_eq_true, beq_iff_eq] at h
      simp only [List.length_cons, List.take_succ_cons]
      rw [← h.1, ← ih bs h.2]

theorem listPre_take : ∀ (ys : List String) (k : Nat), listPre (ys.take k) ys = true := by
  intro ys
  induction ys with
  | nil => intro k; cases k <;> rfl
  | cons b bs ih =>
    intro k
    cases k with
    | zero => rfl
    | succ k2 => simp [listPre, ih k2]

theorem listPre_dropLast : ∀ xs ys : List String, listPre xs ys = true →
    xs.length < ys.length → listPre xs ys.dropLast = true := by
  intro xs ys h hl
  have hx : xs = ys.take xs.length := listPre_eq_take xs ys h
  have : ys.dropLast.take xs.length = ys.take xs.length := by
    rw [List.dropLast_eq_take]
    rw [List.take_take]
    congr 1
    omega
  rw [hx, ← this]
  exact listPre_take _ _

theorem listPre_append_right : ∀ xs zs : List String, listPre xs (xs ++ zs) = true := by
  intro xs zs
  induction xs with
  | nil => rfl
  | cons a as ih => simp [listPre, ih]

/-! ## State operation facts -/

def chainKeys (st : InspState) : List APath := st.chain.map ChainEntry.key

theorem chainKeys_setKids (st : InspState) (p : APath) (ks : List Child) :
    chainKeys (setKids st p ks) = chainKeys st := by
  unfold chainKeys setKids
  rw [List.map_map]
  apply List.map_congr_left
  intro ce _
  by_cases h : ce.key = p <;> simp [h]

theorem chainKeys_appendKid (st : InspState) (p : APath) (c : Child) :
    chainKeys (appendKid st p c) = chainKeys st := by
  unfold appendKid
  cases lookupChain st p with
  | none => rfl
  | some ce => exact chainKeys_setKids st p _

theorem chainKeys_appendKids (st : InspState) (p : APath) (cs : List Child) :
    chainKeys (appendKids st p cs) = chainKeys st := by
  unfold appendKids
  cases lookupChain st p with
  | none => rfl
  | some ce => exact chainKeys_setKids st p _

theorem lookupChain_isSome_iff (st : InspState) (q : APath) :
    (lookupChain st q).isSome = true ↔ q ∈ chainKeys st := by
  unfold lookupChain chainKeys
  rw [List.find?_isSome]
  constructor
  · rintro ⟨ce, hmem, hpred⟩
    rw [beq_iff_eq] at hpred
    exact hpred ▸ List.mem_map_of_mem ChainEntry.key hmem
  · intro h
    rw [List.mem_map] at h
    obtain ⟨ce, hmem, hk⟩ := h
    exact ⟨ce, hmem, by rw [beq_iff_eq]; exact hk⟩

theorem lookupChain_mem (st : InspState) (q : APath) (ce : ChainEntry)
    (h : lookupChain st q = some ce) : ce ∈ st.chain ∧ ce.key = q := by
  unfold lookupChain at h
  refine ⟨List.mem_of_find?_eq_some h, ?_⟩
  have := List.find?_some h
  rwa [beq_iff_eq] at this

theorem mem_setKids_chain (st : InspState) (p : APath) (ks : List Child)
    (ce' : ChainEntry) (h : ce' ∈ (setKids st p ks).chain) :
    ∃ ce ∈ st.chain, ce' = (if ce.key == p then ⟨ce.key, ce.name, ce.relative_path, ks⟩ else ce) := by
  unfold setKids at h
  rw [List.mem_map] at h
  obtain ⟨ce, hmem, hce⟩ := h
  exact ⟨ce, hmem, hce.symm⟩

theorem mem_set_imp {α : Type} {l : List α} {i : Nat} {y x : α}
    (h : x ∈ l.set i y) : x = y ∨ x ∈ l := by
  induction l generalizing i with
  | nil => simp at h
  | cons a as ih =>
    cases i with
    | zero =>
      rw [List.set_cons_zero] at h
      rw [List.mem_cons] at h
      rcases h with rfl | h
      · exact Or.inl rfl
      · exact Or.inr (List.mem_cons_of_mem a h)
    | succ j =>
      rw [List.set_cons_succ] at h
      rw [List.mem_cons] at h
      rcases h with rfl | h
      · exact Or.inr (List.mem_cons_self _ _)
      · rcases ih h with h2 | h2
        · exact Or.inl h2
        · exact Or.inr (List.mem_cons_of_mem a h2)

theorem mem_set_of_mem_of_ne {α : Type} {l : List α} {i : Nat} {y x : α}
    (hx : x ∈ l) (hget : l.get? i ≠ some x) : x ∈ l.set i y := by
  induction l generalizing i with
  | nil => simp at hx
  | cons a as ih =>
    cases i with
    | zero =>
      rw [List.set_cons_zero]
      rw [List.mem_cons] at hx
      rcases hx with rfl | hx
      · exact absurd (by simp [List.get?]) hget
      · exact List.mem_cons_of_mem y hx
    | succ j =>
      rw [List.set_cons_succ]
      rw [List.mem_cons] at hx
      rcases hx with rfl | hx
      · exact List.mem_cons_self _ _
      · exact List.mem_cons_of_mem a (ih hx (by simpa [List.get?] using hget))

/-! ## Filesystem well-formedness (real directories list each name once) -/

def nodupStr : List String → Bool
  | [] => true
  | s :: ss => !(ss.contains s) && nodupStr ss

mutual
/-- Every directory of the snapshot lists pairwise-distinct entry names
(true of every real filesystem). -/
def fsWfT : FSTree → Bool
  | .file _ _ _ _ => true
  | .dir es _ _ => nodupStr (es.map Prod.fst) && fsWfL es
def fsWfL : List (String × FSTree) → Bool
  | [] => true
  | e :: es => fsWfT e.2 && fsWfL es
end

def FS.wf (fs : FS) : Bool := fsWfT fs.root

theorem findAtAux_append : ∀ (xs ys : List String) (t : FSTree),
    findAtAux (xs ++ ys) t = (findAtAux xs t).bind (findAtAux ys) := by
  intro xs
  induction xs with
  | nil => intro ys t; rfl
  | cons c rest ih =>
    intro ys t
    cases t with
    | file b tl sz mt => rfl
    | dir es sz mt =>
      rw [List.cons_append, findAtAux, findAtAux]
      cases lookupEntry c es with
      | none => rfl
      | some sub => exact ih ys sub

theorem FS.find_child (fs : FS) (p : APath) (es : List (String × FSTree))
    (sz : Nat) (mt : String) (c : String) (sub : FSTree)
    (hp : fs.find p = some (.dir es sz mt)) (hl : lookupEntry c es = some sub) :
    fs.find (p.child c) = some sub := by
  unfold FS.find at hp ⊢
  unfold APath.child
  simp only []
  rw [findAtAux_append, hp]
  simp [findAtAux, hl]

theorem lookupEntry_of_mem_nodup : ∀ (es : List (String × FSTree)) (c : String) (sub : FSTree),
    nodupStr (es.map Prod.fst) = true → (c, sub) ∈ es → lookupEntry c es = some sub := by
  intro es
  induction es with
  | nil => intro c sub _ h; simp at h
  | cons e rest ih =>
    intro c sub hnd hmem
    rw [List.map_cons, nodupStr, Bool.and_eq_true] at hnd
    rw [List.mem_cons] at hmem
    rcases hmem with rfl | hmem
    · simp [lookupEntry]
    · rw [lookupEntry]
      split
      · next heq =>
        rw [beq_iff_eq] at heq
        exfalso
        have hc : (rest.map Prod.fst).contains e.1 = true := by
          rw [List.contains_iff_exists_mem_beq]
          refine ⟨c, List.mem_map_of_mem Prod.fst hmem, ?_⟩
          rw [beq_iff_eq]
          exact heq
        rw [hc] at hnd
        simp at hnd
      · exact ih c sub hnd.2 hmem

theorem fsWfL_mem : ∀ (es : List (String × FSTree)) (e : String × FSTree),
    fsWfL es = true → e ∈ es → fsWfT e.2 = true := by
  intro es
  induction es with
  | nil => intro e _ h; simp at h
  | cons x xs ih =>
    intro e h hmem
    rw [fsWfL, Bool.and_eq_true] at h
    rw [List.mem_cons] at hmem
    rcases hmem with rfl | hmem
    · exact h.1
    · exact ih e h.2 hmem

theorem FS.isDir_of_find_file (fs : FS) (q : APath) (b : List Nat)
    (tl : Option (List String)) (sz : Nat) (mt : String)
    (h : fs.find q = some (.file b tl sz mt)) : fs.isDir q = false := by
  unfold FS.isDir
  rw [h]

/-- Top-level children of a walked directory node have the kind the
snapshot records at their path (needed because merged subtrees are later
re-addressed by absolute path). -/
theorem processEntries_fsOk (I : Inspector) (fs : FS) (base : APath) :
    ∀ (es : List (String × FSTree)) (pp : APath) (m : GitignoreMatcher) (depth : Nat),
      (∀ e ∈ es, fs.find (pp.child e.1) = some e.2) →
      ∀ c ∈ (processEntries I fs base pp es m depth).1,
        c.is_dir = false → fs.isDir c.path = false := by
  intro es
  induction es with
  | nil =>
    intro pp m depth _ c hc
    simp [processEntries] at hc
  | cons e rest ih =>
    intro pp m depth hfind c hc hdir
    obtain ⟨name, sub⟩ := e
    rw [processEntries] at hc
    by_cases h1 : (!I.include_hidden && headIs '.' name && name != ".gitignore") = true
    · rw [if_pos h1] at hc
      exact ih pp m depth (fun e he => hfind e (List.mem_cons_of_mem _ he)) c hc hdir
    · rw [if_neg h1] at hc
      by_cases h2 : (sub.isDirT && I.ignore_dirs.contains name) = true
      · rw [if_pos h2] at hc
        exact ih pp m depth (fun e he => hfind e (List.mem_cons_of_mem _ he)) c hc hdir
      · rw [if_neg h2] at hc
        by_cases h3 : m.is_ignored (pp.child name) = true
        · rw [if_pos h3] at hc
          exact ih pp m depth (fun e he => hfind e (List.mem_cons_of_mem _ he)) c hc hdir
        · rw [if_neg h3] at hc
          by_cases h4 : sub.isDirT = true
          · rw [if_pos h4] at hc
            simp only [] at hc
            cases hpc : (processDir I fs base sub (pp.child name) m (depth + 1)).1 with
            | none =>
              rw [hpc] at hc
              exact ih pp _ depth (fun e he => hfind e (List.mem_cons_of_mem _ he)) c hc hdir
            | some c0 =>
              rw [hpc] at hc
              rw [List.mem_cons] at hc
              rcases hc with rfl | hc
              · have := (processDir_walkProps I fs base sub (pp.child name) m (depth + 1) c hpc).2.1
                rw [this] at hdir
                simp at hdir
              · exact ih pp _ depth (fun e he => hfind e (List.mem_cons_of_mem _ he)) c hc hdir
          · rw [if_neg h4] at hc
            simp only [] at hc
            rw [List.mem_cons] at hc
            rcases hc with rfl | hc
            · cases sub with
              | dir ses ssz smt => simp [FSTree.isDirT] at h4
              | file sb stl ssz smt =>
                have hfe := hfind (name, .file sb stl ssz smt) (List.mem_cons_self _ _)
                have hpath : (processFile I (pp.child name) base
                    (FSTree.file sb stl ssz smt).bytesOf (FSTree.file sb stl ssz smt).textLinesOf
                    (FSTree.file sb stl ssz smt).szOf (FSTree.file sb stl ssz smt).mtimeOf).path =
                    pp.child name := by
                  simp [processFile, FileNode.path]
                rw [hpath]
                exact FS.isDir_of_find_file fs (pp.child name) sb stl ssz smt hfe
            · exact ih pp m depth (fun e he => hfind e (List.mem_cons_of_mem _ he)) c hc hdir

theorem processDir_fsOk (I : Inspector) (fs : FS) (base : APath)
    (t : FSTree) (p : APath) (m : GitignoreMatcher) (depth : Nat) (node : FileNode)
    (hwf : fsWfT t = true) (hfind : fs.find p = some t)
    (h : (processDir I fs base t p m depth).1 = some node) :
    ∀ c ∈ node.children, c.is_dir = false → fs.isDir c.path = false := by
  rw [processDir] at h
  by_cases hg : (match I.max_depth with
      | some k => decide (depth > k)
      | none => false) = true
  · rw [if_pos hg] at h; simp at h
  · rw [if_neg hg] at h
    by_cases hig : m.is_ignored p = true
    · rw [if_pos hig] at h; simp at h
    · rw [if_neg hig] at h
      simp only [] at h
      cases t with
      | file b tl sz mt =>
        simp only [Option.some.injEq] at h
        subst h
        intro c hc
        simp [FileNode.children] at hc
      | dir es sz mt =>
        simp only [Option.some.injEq] at h
        subst h
        intro c hc hdir
        simp only [FileNode.children] at hc
        rw [fsWfT, Bool.and_eq_true] at hwf
        refine processEntries_fsOk I fs base es p _ depth ?_ c hc hdir
        intro e he
        obtain ⟨name, sub⟩ := e
        exact FS.find_child fs p es sz mt name sub hfind
          (lookupEntry_of_mem_nodup es name sub hwf.1 he)

/-! ## The inspect-state invariant -/

/-- Invariant of the cache/chain state during `inspect`: keys are unique
(each path is cached at most once); the base is cached (the virtual root);
every other entry lies strictly below the base and is linked by a reference
from its parent's entry; and every completed subtree hanging off a chain
node keeps files childless and agrees with the snapshot on the kind stored
at its path. -/
def stInv (fs : FS) (base : APath) (st : InspState) : Prop :=
  (chainKeys st).Nodup ∧
  base ∈ chainKeys st ∧
  (∀ ce ∈ st.chain, ce.key ≠ base →
    strictUnder base ce.key = true ∧
    ∃ ce2 ∈ st.chain, ce2.key = ce.key.parent ∧ Child.ref ce.key ∈ ce2.kids) ∧
  (∀ ce ∈ st.chain, ∀ t : FileNode, Child.tree t ∈ ce.kids →
    filesChildless t = true ∧ (t.is_dir = false → fs.isDir t.path = false))

theorem chain_key_unique (st : InspState) (hnd : (chainKeys st).Nodup)
    (ce1 ce2 : ChainEntry) (h1 : ce1 ∈ st.chain) (h2 : ce2 ∈ st.chain)
    (hk : ce1.key = ce2.key) : ce1 = ce2 :=
  List.inj_on_of_nodup_map hnd h1 h2 hk

theorem lookupChain_of_mem (st : InspState) (hnd : (chainKeys st).Nodup)
    (ce : ChainEntry) (h : ce ∈ st.chain) : lookupChain st ce.key = some ce := by
  cases hl : lookupChain st ce.key with
  | none =>
    exfalso
    have : (lookupChain st ce.key).isSome = true := by
      rw [lookupChain_isSome_iff]
      exact List.mem_map_of_mem ChainEntry.key h
    rw [hl] at this
    simp at this
  | some ce0 =>
    obtain ⟨hm0, hk0⟩ := lookupChain_mem st ce.key ce0 hl
    rw [chain_key_unique st hnd ce ce0 h hm0 hk0.symm]

theorem mem_appendKid_chain (st : InspState) (hnd : (chainKeys st).Nodup)
    (p : APath) (c : Child)
    (ce' : ChainEntry) (h : ce' ∈ (appendKid st p c).chain) :
    ∃ ce ∈ st.chain, ce'.key = ce.key ∧ ce'.name = ce.name ∧
      ce'.relative_path = ce.relative_path ∧
      (ce'.kids = ce.kids ∨ ce'.kids = ce.kids ++ [c]) := by
  unfold appendKid at h
  cases hl : lookupChain st p with
  | none =>
    rw [hl] at h
    exact ⟨ce', h, rfl, rfl, rfl, Or.inl rfl⟩
  | some ce0 =>
    rw [hl] at h
    obtain ⟨ce, hmem, hce⟩ := mem_setKids_chain st p _ ce' h
    by_cases hk : ce.key = p
    · obtain ⟨hm0, hk0⟩ := lookupChain_mem st p ce0 hl
      have hee : ce = ce0 := chain_key_unique st hnd ce ce0 hmem hm0 (hk.trans hk0.symm)
      rw [hce]
      refine ⟨ce, hmem, ?_⟩
      simp [hk, hee, hk0]
    · rw [hce]
      simp [hk]
      exact ⟨ce, hmem, rfl, rfl, rfl, Or.inl rfl⟩

theorem appendKid_keeps (st : InspState) (hnd : (chainKeys st).Nodup)
    (p : APath) (c : Child)
    (ce : ChainEntry) (h : ce ∈ st.chain) :
    ∃ ce' ∈ (appendKid st p c).chain, ce'.key = ce.key ∧ ∀ x ∈ ce.kids, x ∈ ce'.kids := by
  unfold appendKid
  cases hl : lookupChain st p with
  | none => exact ⟨ce, h, rfl, fun x hx => hx⟩
  | some ce0 =>
    obtain ⟨hm0, hk0⟩ := lookupChain_mem st p ce0 hl
    unfold setKids
    by_cases hk : ce.key = p
    · have hee : ce = ce0 := chain_key_unique st hnd ce ce0 h hm0 (hk.trans hk0.symm)
      refine ⟨⟨ce.key, ce.name, ce.relative_path, ce0.kids ++ [c]⟩, ?_, rfl, ?_⟩
      · rw [List.mem_map]
        exact ⟨ce, h, by simp [hk]⟩
      · intro x hx
        exact List.mem_append_left _ (hee ▸ hx)
    · refine ⟨ce, ?_, rfl, fun x hx => hx⟩
      rw [List.mem_map]
      exact ⟨ce, h, by simp [hk]⟩

theorem appendKid_adds (st : InspState) (hnd : (chainKeys st).Nodup)
    (p : APath) (c : Child) (hp : p ∈ chainKeys st) :
    ∃ ce' ∈ (appendKid st p c).chain, ce'.key = p ∧ c ∈ ce'.kids := by
  have hsome : (lookupChain st p).isSome = true := (lookupChain_isSome_iff st p).mpr hp
  cases hl : lookupChain st p with
  | none => rw [hl] at hsome; simp at hsome
  | some ce0 =>
    obtain ⟨hm0, hk0⟩ := lookupChain_mem st p ce0 hl
    unfold appendKid
    rw [hl]
    unfold setKids
    refine ⟨⟨ce0.key, ce0.name, ce0.relative_path, ce0.kids ++ [c]⟩, ?_, hk0, by simp⟩
    rw [List.mem_map]
    exact ⟨ce0, hm0, by simp [hk0]⟩

theorem stInv_closure (fs : FS) (base : APath) (st : InspState) (h : stInv fs base st) :
    ∀ (N : Nat) (d : APath), d.parts.length ≤ N → d ∈ chainKeys st →
      ∀ q : APath, strictUnder base q = true → listPre q.parts d.parts = true →
        q ∈ chainKeys st := by
  intro N
  induction N with
  | zero =>
    intro d hdl hd q hq hpre
    rw [strictUnder, Bool.and_eq_true] at hq
    have h1 := listPre_length _ _ hq.1
    have h2 := listPre_length _ _ hpre
    simp at hq
    omega
  | succ N2 ih =>
    intro d hdl hd q hq hpre
    by_cases heq : q = d
    · exact heq ▸ hd
    · have hlt : q.parts.length < d.parts.length := by
        have h2 := listPre_length _ _ hpre
        rcases Nat.lt_or_ge q.parts.length d.parts.length with h | h
        · exact h
        · exact absurd (listPre_full _ _ hpre h) (by
            intro hpp
            exact heq (by cases q; cases d; simpa using hpp))
      have hdne : d ≠ base := by
        rw [strictUnder, Bool.and_eq_true] at hq
        intro hdb
        have h1 := listPre_length _ _ hq.1
        have h2 := listPre_length _ _ hpre
        simp at hq
        rw [hdb] at hlt h2
        omega
      rw [chainKeys, List.mem_map] at hd
      obtain ⟨ce, hcem, hcek⟩ := hd
      obtain ⟨hsu, ce2, hce2m, hce2k, _⟩ := h.2.2.1 ce hcem (by rw [hcek]; exact hdne)
      rw [hcek] at hce2k hsu
      have hqpar : listPre q.parts d.parts.dropLast = true := listPre_dropLast _ _ hpre hlt
      have hdpar : d.parent ∈ chainKeys st := by
        rw [← hce2k]
        exact List.mem_map_of_mem ChainEntry.key hce2m
      have hfle : d.parent.parts.length ≤ N2 := by
        unfold APath.parent
        simp only [List.length_dropLast]
        rw [strictUnder, Bool.and_eq_true] at hsu
        have h2 := hsu.2
        simp at h2
        omega
      exact ih d.parent hfle hdpar q hq (by unfold APath.parent; exact hqpar)

theorem APath.parent_of_cons (c : String) (revt : List String) :
    (APath.mk ((c :: revt).reverse)).parent = ⟨revt.reverse⟩ := by
  unfold APath.parent
  simp


theorem createStep_facts (fs : FS) (base dirp pk : APath) (stp : InspState) (rel : String)
    (hinv : stInv fs base stp) (hdnot : dirp ∉ chainKeys stp) (hpk : pk ∈ chainKeys stp)
    (hpkpar : pk = dirp.parent) (hstrict : strictUnder base dirp = true) :
    stInv fs base (appendKid ⟨stp.chain ++ [⟨dirp, dirp.name, rel, []⟩]⟩ pk (.ref dirp)) ∧
    chainKeys (appendKid ⟨stp.chain ++ [⟨dirp, dirp.name, rel, []⟩]⟩ pk (.ref dirp)) =
      chainKeys stp ++ [dirp] := by
  have hdne : dirp ≠ base := fun hbe => hdnot (hbe ▸ hinv.2.1)
  have hkeys2 : chainKeys ⟨stp.chain ++ [⟨dirp, dirp.name, rel, []⟩]⟩ =
      chainKeys stp ++ [dirp] := by
    unfold chainKeys
    simp
  have hnd2 : (chainKeys ⟨stp.chain ++ [⟨dirp, dirp.name, rel, []⟩]⟩).Nodup := by
    rw [hkeys2, List.nodup_append]
    exact ⟨hinv.1, by simp, by
      intro q hq hq2
      simp at hq2
      exact hdnot (hq2 ▸ hq)⟩
  have hkeys3 : chainKeys (appendKid ⟨stp.chain ++ [⟨dirp, dirp.name, rel, []⟩]⟩ pk
      (.ref dirp)) = chainKeys stp ++ [dirp] := by
    rw [chainKeys_appendKid, hkeys2]
  refine ⟨⟨?_, ?_, ?_, ?_⟩, hkeys3⟩
  · rw [hkeys3, ← hkeys2]
    exact hnd2
  · rw [hkeys3]
    exact List.mem_append_left _ hinv.2.1
  · intro ce' hmem' hne'
    obtain ⟨ce, hcem, hk, hn, hr, hkids⟩ :=
      mem_appendKid_chain _ hnd2 pk (.ref dirp) ce' hmem'
    rw [List.mem_append] at hcem
    rcases hcem with hold | hnew
    · obtain ⟨hsu, ce2, hce2m, hce2k, hce2ref⟩ :=
        hinv.2.2.1 ce hold (by rw [← hk]; exact hne')
      refine ⟨by rw [hk]; exact hsu, ?_⟩
      rw [hk]
      obtain ⟨ce2', hce2'm, hce2'k, hce2'kids⟩ :=
        appendKid_keeps _ hnd2 pk (.ref dirp) ce2 (List.mem_append_left _ hce2m)
      exact ⟨ce2', hce2'm, by rw [hce2'k, hce2k], hce2'kids _ hce2ref⟩
    · simp at hnew
      rw [hnew] at hk
      simp at hk
      refine ⟨by rw [hk]; exact hstrict, ?_⟩
      rw [hk]
      obtain ⟨ce'', hce''m, hce''k, hce''kid⟩ :=
        appendKid_adds _ hnd2 pk (.ref dirp) (by rw [hkeys2]; exact List.mem_append_left _ hpk)
      exact ⟨ce'', hce''m, by rw [hce''k, hpkpar], hce''kid⟩
  · intro ce' hmem' t ht
    obtain ⟨ce, hcem, hk, hn, hr, hkids⟩ :=
      mem_appendKid_chain _ hnd2 pk (.ref dirp) ce' hmem'
    have htce : Child.tree t ∈ ce.kids := by
      rcases hkids with hkids | hkids
      · rw [← hkids]; exact ht
      · rw [hkids] at ht
        rw [List.mem_append] at ht
        rcases ht with ht | ht
        · exact ht
        · simp at ht
    rw [List.mem_append] at hcem
    rcases hcem with hold | hnew
    · exact hinv.2.2.2 ce hold t htce
    · simp at hnew
      rw [hnew] at htce
      simp at htce

theorem ensureDirAux_master (fs : FS) (base : APath) :
    ∀ (rev : List String) (st : InspState), stInv fs base st →
      stInv fs base (ensureDirAux base rev st).2 ∧
      (∀ q ∈ chainKeys st, q ∈ chainKeys (ensureDirAux base rev st).2) ∧
      (∀ q ∈ chainKeys (ensureDirAux base rev st).2,
        q ∈ chainKeys st ∨ q.parts.length ≤ rev.length) ∧
      (ensureDirAux base rev st).1 ∈ chainKeys (ensureDirAux base rev st).2 ∧
      (listPre base.parts rev.reverse = true →
        ∀ q : APath, strictUnder base q = true → listPre q.parts rev.reverse = true →
          q ∈ chainKeys (ensureDirAux base rev st).2) ∧
      (listPre base.parts rev.reverse = true →
        (ensureDirAux base rev st).1 = ⟨rev.reverse⟩) := by
  intro rev
  induction rev with
  | nil =>
    intro st h
    rw [ensureDirAux]
    by_cases hc : (lookupChain st ⟨([] : List String).reverse⟩).isSome = true
    · rw [if_pos hc]
      refine ⟨h, fun q hq => hq, fun q hq => Or.inl hq, ?_, ?_, ?_⟩
      · exact (lookupChain_isSome_iff st _).mp hc
      · intro hb q hq hqp
        exact stInv_closure fs base st h
          (⟨([] : List String).reverse⟩ : APath).parts.length
          ⟨([] : List String).reverse⟩ (le_refl _)
          ((lookupChain_isSome_iff st _).mp hc) q hq hqp
      · intro hb
        rfl
    · rw [if_neg hc]
      have hbe : ∀ hb : listPre base.parts (([] : List String).reverse) = true, False := by
        intro hb
        have h1 := listPre_length _ _ hb
        simp at h1
        have hbeq : base = ⟨([] : List String).reverse⟩ := by
          cases base with
          | mk bp => simp_all
        exact hc ((lookupChain_isSome_iff st _).mpr (hbeq ▸ h.2.1))
      by_cases ha : ¬ (strictUnder base ⟨([] : List String).reverse⟩ = true) ∧
          base ≠ ⟨([] : List String).reverse⟩
      · rw [if_pos ha]
        exact ⟨h, fun q hq => hq, fun q hq => Or.inl hq, h.2.1,
          fun hb => absurd hb (fun hb2 => hbe hb2),
          fun hb => absurd hb (fun hb2 => hbe hb2)⟩
      · rw [if_neg ha]
        exact ⟨h, fun q hq => hq, fun q hq => Or.inl hq, h.2.1,
          fun hb => absurd hb (fun hb2 => hbe hb2),
          fun hb => absurd hb (fun hb2 => hbe hb2)⟩
  | cons c revt ih =>
    intro st h
    rw [ensureDirAux]
    by_cases hc : (lookupChain st ⟨(c :: revt).reverse⟩).isSome = true
    · rw [if_pos hc]
      refine ⟨h, fun q hq => hq, fun q hq => Or.inl hq, ?_, ?_, ?_⟩
      · exact (lookupChain_isSome_iff st _).mp hc
      · intro hb q hq hqp
        exact stInv_closure fs base st h
          (⟨(c :: revt).reverse⟩ : APath).parts.length ⟨(c :: revt).reverse⟩ (le_refl _)
          ((lookupChain_isSome_iff st _).mp hc) q hq hqp
      · intro hb
        rfl
    · rw [if_neg hc]
      by_cases ha : ¬ (strictUnder base ⟨(c :: revt).reverse⟩ = true) ∧
          base ≠ ⟨(c :: revt).reverse⟩
      · rw [if_pos ha]
        have hnostrict : ∀ hb : listPre base.parts ((c :: revt).reverse) = true, False := by
          intro hb
          rcases Nat.lt_or_ge base.parts.length ((c :: revt).reverse).length with hl | hl
          · exact ha.1 (by
              rw [strictUnder, Bool.and_eq_true]
              exact ⟨hb, by simpa using hl⟩)
          · exact ha.2 (by
              have := listPre_full _ _ hb (by simpa using hl)
              cases base
              simpa using this)
        exact ⟨h, fun q hq => hq, fun q hq => Or.inl hq, h.2.1,
          fun hb => absurd hb (fun hb2 => hnostrict hb2),
          fun hb => absurd hb (fun hb2 => hnostrict hb2)⟩
      · rw [if_neg ha]
        simp only []
        push_neg at ha
        obtain ⟨iha, ihb, ihc, ihd, ihe, ihf⟩ := ih st h
        have hdirpne : (⟨(c :: revt).reverse⟩ : APath) ∉ chainKeys st := by
          intro hmem
          exact hc ((lookupChain_isSome_iff st _).mpr hmem)
        have hstrict : strictUnder base ⟨(c :: revt).reverse⟩ = true := by
          by_cases hs : strictUnder base ⟨(c :: revt).reverse⟩ = true
          · exact hs
          · exact absurd (ha hs) (fun hbe2 => hdirpne (hbe2 ▸ h.2.1))
        have hbasepre : listPre base.parts ((c :: revt).reverse) = true := by
          rw [strictUnder, Bool.and_eq_true] at hstrict
          exact hstrict.1
        have hbaselt : base.parts.length < ((c :: revt).reverse).length := by
          rw [strictUnder, Bool.and_eq_true] at hstrict
          simpa using hstrict.2
        have hparpre : listPre base.parts (revt.reverse) = true := by
          have h2 := listPre_dropLast base.parts ((c :: revt).reverse) hbasepre
            (by simpa using hbaselt)
          rw [List.reverse_cons, List.dropLast_concat] at h2
          exact h2
        have hps1 : (ensureDirAux base revt st).1 = ⟨revt.reverse⟩ := ihf hparpre
        have hdirpnotps : (⟨(c :: revt).reverse⟩ : APath) ∉
            chainKeys (ensureDirAux base revt st).2 := by
          intro hmem
          rcases ihc _ hmem with hin | hlen
          · exact hdirpne hin
          · simp at hlen
        have hcsf := createStep_facts fs base ⟨(c :: revt).reverse⟩
          (ensureDirAux base revt st).1 (ensureDirAux base revt st).2
          (posixRelOr ⟨(c :: revt).reverse⟩ base) iha hdirpnotps ihd
          (by rw [hps1, APath.parent_of_cons]) hstrict
        refine ⟨hcsf.1, ?_, ?_, ?_, ?_, ?_⟩
        · intro q hq
          rw [hcsf.2]
          exact List.mem_append_left _ (ihb q hq)
        · intro q hq
          rw [hcsf.2, List.mem_append] at hq
          rcases hq with hq | hq
          · rcases ihc q hq with h2 | h2
            · exact Or.inl h2
            · exact Or.inr (by simp; omega)
          · simp at hq
            rw [hq]
            exact Or.inr (by simp)
        · rw [hcsf.2]
          exact List.mem_append_right _ (by simp)
        · intro hb q hq hqp
          rw [hcsf.2, List.mem_append]
          by_cases hqd : q = ⟨(c :: revt).reverse⟩
          · exact Or.inr (by simp [hqd])
          · left
            have hqlt : q.parts.length < ((c :: revt).reverse).length := by
              have h2 := listPre_length _ _ hqp
              rcases Nat.lt_or_ge q.parts.length ((c :: revt).reverse).length with hl | hl
              · exact hl
              · exact absurd (listPre_full _ _ hqp hl)
                  (fun hpp => hqd (by cases q; simpa using hpp))
            have hqpar : listPre q.parts (revt.reverse) = true := by
              have h2 := listPre_dropLast q.parts ((c :: revt).reverse) hqp hqlt
              rw [List.reverse_cons, List.dropLast_concat] at h2
              exact h2
            exact ihe hparpre q hq hqpar
        · intro hb
          trivial

theorem mem_appendKids_chain (st : InspState) (hnd : (chainKeys st).Nodup)
    (p : APath) (cs : List Child)
    (ce' : ChainEntry) (h : ce' ∈ (appendKids st p cs).chain) :
    ∃ ce ∈ st.chain, ce'.key = ce.key ∧ (ce'.kids = ce.kids ∨ ce'.kids = ce.kids ++ cs) := by
  unfold appendKids at h
  cases hl : lookupChain st p with
  | none =>
    rw [hl] at h
    exact ⟨ce', h, rfl, Or.inl rfl⟩
  | some ce0 =>
    rw [hl] at h
    obtain ⟨ce, hmem, hce⟩ := mem_setKids_chain st p _ ce' h
    by_cases hk : ce.key = p
    · obtain ⟨hm0, hk0⟩ := lookupChain_mem st p ce0 hl
      have hee : ce = ce0 := chain_key_unique st hnd ce ce0 hmem hm0 (hk.trans hk0.symm)
      rw [hce]
      refine ⟨ce, hmem, ?_⟩
      simp [hk, hee, hk0]
    · rw [hce]
      simp [hk]
      exact ⟨ce, hmem, rfl, Or.inl rfl⟩

theorem appendKids_keeps (st : InspState) (hnd : (chainKeys st).Nodup)
    (p : APath) (cs : List Child)
    (ce : ChainEntry) (h : ce ∈ st.chain) :
    ∃ ce' ∈ (appendKids st p cs).chain, ce'.key = ce.key ∧ ∀ x ∈ ce.kids, x ∈ ce'.kids := by
  unfold appendKids
  cases hl : lookupChain st p with
  | none => exact ⟨ce, h, rfl, fun x hx => hx⟩
  | some ce0 =>
    obtain ⟨hm0, hk0⟩ := lookupChain_mem st p ce0 hl
    unfold setKids
    by_cases hk : ce.key = p
    · have hee : ce = ce0 := chain_key_unique st hnd ce ce0 h hm0 (hk.trans hk0.symm)
      refine ⟨⟨ce.key, ce.name, ce.relative_path, ce0.kids ++ cs⟩, ?_, rfl, ?_⟩
      · rw [List.mem_map]
        exact ⟨ce, h, by simp [hk]⟩
      · intro x hx
        exact List.mem_append_left _ (hee ▸ hx)
    · refine ⟨ce, ?_, rfl, fun x hx => hx⟩
      rw [List.mem_map]
      exact ⟨ce, h, by simp [hk]⟩

/-- Appending finished tree children to a chain entry preserves the state
invariant, provided each tree satisfies the kid conditions. -/
theorem stInv_appendTrees (fs : FS) (base : APath) (st : InspState) (k : APath)
    (cs : List Child) (h : stInv fs base st)
    (hcs : ∀ t : FileNode, Child.tree t ∈ cs →
      filesChildless t = true ∧ (t.is_dir = false → fs.isDir t.path = false)) :
    stInv fs base (appendKids st k cs) ∧
    chainKeys (appendKids st k cs) = chainKeys st := by
  refine ⟨⟨?_, ?_, ?_, ?_⟩, chainKeys_appendKids st k cs⟩
  · rw [chainKeys_appendKids]
    exact h.1
  · rw [chainKeys_appendKids]
    exact h.2.1
  · intro ce' hmem' hne'
    obtain ⟨ce, hcem, hk2, hkids⟩ := mem_appendKids_chain st h.1 k cs ce' hmem'
    obtain ⟨hsu, ce2, hce2m, hce2k, hce2ref⟩ := h.2.2.1 ce hcem (by rw [← hk2]; exact hne')
    refine ⟨by rw [hk2]; exact hsu, ?_⟩
    rw [hk2]
    obtain ⟨ce2', hm', hk', hkeep⟩ := appendKids_keeps st h.1 k cs ce2 hce2m
    exact ⟨ce2', hm', by rw [hk', hce2k], hkeep _ hce2ref⟩
  · intro ce' hmem' t ht
    obtain ⟨ce, hcem, hk2, hkids⟩ := mem_appendKids_chain st h.1 k cs ce' hmem'
    rcases hkids with hkids | hkids
    · exact h.2.2.2 ce hcem t (hkids ▸ ht)
    · rw [hkids, List.mem_append] at ht
      rcases ht with ht | ht
      · exact h.2.2.2 ce hcem t ht
      · exact hcs t ht

theorem stInv_appendTree (fs : FS) (base : APath) (st : InspState) (k : APath)
    (t0 : FileNode) (h : stInv fs base st)
    (hfc : filesChildless t0 = true) (hdirfs : t0.is_dir = false → fs.isDir t0.path = false) :
    stInv fs base (appendKid st k (.tree t0)) ∧
    chainKeys (appendKid st k (.tree t0)) = chainKeys st := by
  have heq : appendKid st k (.tree t0) = appendKids st k [.tree t0] := by
    unfold appendKid appendKids
    rfl
  rw [heq]
  refine stInv_appendTrees fs base st k [.tree t0] h ?_
  intro t ht
  simp at ht
  rw [ht]
  exact ⟨hfc, hdirfs⟩

theorem findIdx_get_pred {α : Type} (p : α → Bool) :
    ∀ (l : List α) (i : Nat) (x : α), l.findIdx? p = some i → l.get? i = some x →
      p x = true := by
  intro l
  induction l with
  | nil => intro i x h; simp [List.findIdx?] at h
  | cons a as ih =>
    intro i x h hg
    rw [List.findIdx?_cons] at h
    by_cases hp : p a = true
    · rw [if_pos hp] at h
      simp at h
      subst h
      rw [List.get?_cons_zero] at hg
      injection hg with hg
      rw [← hg]
      exact hp
    · rw [if_neg hp, List.findIdx?_succ] at h
      cases hfj : List.findIdx? p as with
      | none => rw [hfj] at h; simp at h
      | some j =>
        rw [hfj] at h
        simp at h
        cases i with
        | zero => omega
        | succ i2 =>
          have hji : j = i2 := by omega
          subst hji
          rw [List.get?_cons_succ] at hg
          exact ih j x hfj hg

theorem lookupEntry_mem : ∀ (es : List (String × FSTree)) (c : String) (sub : FSTree),
    lookupEntry c es = some sub → ∃ n, (n, sub) ∈ es := by
  intro es
  induction es with
  | nil => intro c sub h; simp [lookupEntry] at h
  | cons e rest ih =>
    intro c sub h
    rw [lookupEntry] at h
    split at h
    · simp at h
      refine ⟨e.1, ?_⟩
      rw [← h]
      exact List.mem_cons_self _ _
    · obtain ⟨n, hn⟩ := ih c sub h
      exact ⟨n, List.mem_cons_of_mem _ hn⟩

theorem findAtAux_wf : ∀ (parts : List String) (t0 t : FSTree),
    fsWfT t0 = true → findAtAux parts t0 = some t → fsWfT t = true := by
  intro parts
  induction parts with
  | nil =>
    intro t0 t hwf h
    rw [findAtAux] at h
    simp at h
    exact h ▸ hwf
  | cons c rest ih =>
    intro t0 t hwf h
    cases t0 with
    | file b tl sz mt => simp [findAtAux] at h
    | dir es sz mt =>
      rw [findAtAux] at h
      cases hl : lookupEntry c es with
      | none => rw [hl] at h; simp at h
      | some sub =>
        rw [hl] at h
        simp at h
        obtain ⟨n, hmem⟩ := lookupEntry_mem es c sub hl
        rw [fsWfT, Bool.and_eq_true] at hwf
        exact ih sub t (fsWfL_mem es (n, sub) hwf.2 hmem) h

theorem FS.wf_find (fs : FS) (p : APath) (t : FSTree)
    (hwf : FS.wf fs = true) (h : fs.find p = some t) : fsWfT t = true :=
  findAtAux_wf p.parts fs.root t hwf h

theorem filesChildless_children (t : FileNode) (h : filesChildless t = true) :
    ∀ c ∈ t.children, filesChildless c = true := by
  cases t with
  | mk n p r d s m co kids =>
    rw [filesChildless, Bool.and_eq_true] at h
    intro c hc
    exact filesChildlessList_mem h.2 c (by simpa [FileNode.children] using hc)

theorem stInv_mergeSet (fs : FS) (base : APath) (st : InspState) (k : APath)
    (ce : ChainEntry) (i : Nat) (t0 t1 : FileNode)
    (h : stInv fs base st) (hlk : lookupChain st k = some ce)
    (hget : ce.kids.get? i = some (.tree t0))
    (ht1fc : filesChildless t1 = true)
    (ht1dir : t1.is_dir = false → fs.isDir t1.path = false) :
    stInv fs base (setKids st k (ce.kids.set i (.tree t1))) ∧
    chainKeys (setKids st k (ce.kids.set i (.tree t1))) = chainKeys st := by
  obtain ⟨hcem, hcek⟩ := lookupChain_mem st k ce hlk
  refine ⟨⟨?_, ?_, ?_, ?_⟩, chainKeys_setKids st k _⟩
  · rw [chainKeys_setKids]
    exact h.1
  · rw [chainKeys_setKids]
    exact h.2.1
  · intro ce' hmem' hne'
    obtain ⟨ce2, hce2m, hce2e⟩ := mem_setKids_chain st k _ ce' hmem'
    have hkey : ce'.key = ce2.key := by
      rw [hce2e]
      by_cases hk2 : ce2.key = k <;> simp [hk2]
    obtain ⟨hsu, ce3, hce3m, hce3k, hce3ref⟩ :=
      h.2.2.1 ce2 hce2m (by rw [← hkey]; exact hne')
    refine ⟨by rw [hkey]; exact hsu, ?_⟩
    rw [hkey]
    by_cases hk3 : ce3.key = k
    · have hee : ce3 = ce := chain_key_unique st h.1 ce3 ce hce3m hcem (hk3.trans hcek.symm)
      refine ⟨⟨ce3.key, ce3.name, ce3.relative_path, ce.kids.set i (.tree t1)⟩, ?_, hce3k, ?_⟩
      · unfold setKids
        rw [List.mem_map]
        exact ⟨ce3, hce3m, by simp [hk3]⟩
      · refine mem_set_of_mem_of_ne (hee ▸ hce3ref) ?_
        rw [hget]
        intro hcon
        simp at hcon
    · refine ⟨ce3, ?_, hce3k, hce3ref⟩
      unfold setKids
      rw [List.mem_map]
      exact ⟨ce3, hce3m, by simp [hk3]⟩
  · intro ce' hmem' t ht
    obtain ⟨ce2, hce2m, hce2e⟩ := mem_setKids_chain st k _ ce' hmem'
    by_cases hk2 : ce2.key = k
    · rw [hce2e] at ht
      simp only [if_pos (show (ce2.key == k) = true by simp [hk2])] at ht
      rcases mem_set_imp ht with hte | hte
      · injection hte with hte
        rw [hte]
        exact ⟨ht1fc, ht1dir⟩
      · have hee : ce2 = ce := chain_key_unique st h.1 ce2 ce hce2m hcem (hk2.trans hcek.symm)
        exact h.2.2.2 ce hcem t (hee ▸ hte)
    · rw [hce2e] at ht
      simp only [if_neg (show ¬ (ce2.key == k) = true by simpa using hk2)] at ht
      exact h.2.2.2 ce2 hce2m t ht

theorem ensureDir_master (fs : FS) (base : APath) (st : InspState) (dirp : APath)
    (h : stInv fs base st) :
    stInv fs base (ensureDir base st dirp).2 ∧
    (∀ q ∈ chainKeys st, q ∈ chainKeys (ensureDir base st dirp).2) ∧
    (ensureDir base st dirp).1 ∈ chainKeys (ensureDir base st dirp).2 ∧
    (listPre base.parts dirp.parts = true →
      ∀ q : APath, strictUnder base q = true → listPre q.parts dirp.parts = true →
        q ∈ chainKeys (ensureDir base st dirp).2) ∧
    (listPre base.parts dirp.parts = true → (ensureDir base st dirp).1 = dirp) := by
  have hm := ensureDirAux_master fs base dirp.parts.reverse st h
  rw [List.reverse_reverse] at hm
  rw [ensureDir]
  refine ⟨hm.1, hm.2.1, hm.2.2.2.1, hm.2.2.2.2.1, ?_⟩
  intro hb
  rw [hm.2.2.2.2.2 hb]


theorem filesChildlessList_of_forall : ∀ (L : List FileNode),
    (∀ c ∈ L, filesChildless c = true) → filesChildlessList L = true := by
  intro L
  induction L with
  | nil => intro _; rfl
  | cons x xs ih =>
    intro h
    rw [filesChildlessList, Bool.and_eq_true]
    exact ⟨h x (List.mem_cons_self x xs), ih (fun c hc => h c (List.mem_cons_of_mem x hc))⟩

/-- Any sublist of a walked directory's children, wrapped as tree kids,
satisfies the kid conditions of the state invariant. -/
theorem kids_cond_of_subset (fs : FS) (dtree : FileNode) (l : List FileNode)
    (hsub : ∀ c ∈ l, c ∈ dtree.children)
    (hdfc : filesChildless dtree = true)
    (hok : ∀ c ∈ dtree.children, c.is_dir = false → fs.isDir c.path = false) :
    ∀ t2 : FileNode, Child.tree t2 ∈ l.map Child.tree →
      filesChildless t2 = true ∧ (t2.is_dir = false → fs.isDir t2.path = false) := by
  intro t2 ht2
  rw [List.mem_map] at ht2
  obtain ⟨t3, ht3, ht3e⟩ := ht2
  injection ht3e with ht3e
  subst ht3e
  exact ⟨filesChildless_children dtree hdfc t3 (hsub t3 ht3),
    hok t3 (hsub t3 ht3)⟩

/-- The merged node built when a directory input hits an existing tree kid
keeps files childless, provided the old node was a childless-file directory
node and every appended child is childless-file. -/
theorem filesChildless_mergeNode (t0 : FileNode) (ext : List FileNode)
    (hd : t0.is_dir = true) (hfc : filesChildless t0 = true)
    (hext : ∀ c ∈ ext, filesChildless c = true) :
    filesChildless (.mk t0.name t0.path t0.relative_path t0.is_dir t0.size
      t0.modified t0.content (t0.children ++ ext)) = true := by
  cases t0 with
  | mk n0 p0 r0 d0 s0 m0 c0 k0 =>
    simp only [FileNode.name, FileNode.path, FileNode.relative_path, FileNode.is_dir,
      FileNode.size, FileNode.modified, FileNode.content, FileNode.children] at *
    rw [filesChildless, Bool.and_eq_true] at hfc ⊢
    rw [hd] at *
    refine ⟨by simp, ?_⟩
    rw [filesChildlessList_append, Bool.and_eq_true]
    exact ⟨hfc.2, filesChildlessList_of_forall ext hext⟩

/-- One pass of the `for path in paths` loop preserves the state invariant,
and never removes a cached directory key. -/
theorem inspectStep_stInv (I : Inspector) (fs : FS) (base : APath)
    (gg : Option (APath × List String)) (st : InspState) (path : APath)
    (hwf : FS.wf fs = true) (h : stInv fs base st) :
    stInv fs base (inspectStep I fs base gg st path) ∧
    (∀ q ∈ chainKeys st, q ∈ chainKeys (inspectStep I fs base gg st path)) := by
  cases hf : fs.find path with
  | none =>
    unfold inspectStep
    rw [hf]
    exact ⟨h, fun q hq => hq⟩
  | some t =>
    unfold inspectStep
    rw [hf]
    simp only []
    obtain ⟨ea, eb, ed, ee, ef⟩ := ensureDir_master fs base st path.parent h
    by_cases hdirT : t.isDirT = false
    · rw [if_pos hdirT]
      have hfisdir : fs.isDir path = false := by
        unfold FS.isDir
        rw [hf]
        cases t with
        | file b tl sz mt => rfl
        | dir es sz mt => simp [FSTree.isDirT] at hdirT
      by_cases hig : (buildMatcher I fs gg path t.isDirT).is_ignored path = true
      · rw [if_pos hig]
        exact ⟨h, fun q hq => hq⟩
      · rw [if_neg hig]
        cases hlc : lookupChain (ensureDir base st path.parent).2
            (ensureDir base st path.parent).1 with
        | none => exact ⟨ea, fun q hq => eb q hq⟩
        | some ce =>
          simp only []
          by_cases hdup : (ce.kids.any (fun c => childPath c == path)) = true
          · rw [if_pos hdup]
            exact ⟨ea, fun q hq => eb q hq⟩
          · rw [if_neg hdup]
            have happ := stInv_appendTree fs base (ensureDir base st path.parent).2
              (ensureDir base st path.parent).1
              (processFile I path base t.bytesOf t.textLinesOf t.szOf t.mtimeOf) ea
              (by simp [processFile, filesChildless, filesChildlessList])
              (by
                intro _
                have hp : (processFile I path base t.bytesOf t.textLinesOf t.szOf
                    t.mtimeOf).path = path := by
                  simp [processFile, FileNode.path]
                rw [hp]
                exact hfisdir)
            exact ⟨happ.1, fun q hq => by rw [happ.2]; exact eb q hq⟩
    · rw [if_neg hdirT]
      have hfisdirT : fs.isDir path = true := by
        unfold FS.isDir
        rw [hf]
        cases t with
        | file b tl sz mt => simp [FSTree.isDirT] at hdirT
        | dir es sz mt => rfl
      cases hpd : (processDir I fs base t path (buildMatcher I fs gg path t.isDirT) 0).1 with
      | none => exact ⟨h, fun q hq => hq⟩
      | some dtree =>
        simp only []
        obtain ⟨hdp, hdd, hdn, hdfc, hddesc, hddep⟩ :=
          processDir_walkProps I fs base t path (buildMatcher I fs gg path t.isDirT) 0 dtree hpd
        have hdfsok := processDir_fsOk I fs base t path
          (buildMatcher I fs gg path t.isDirT) 0 dtree (FS.wf_find fs path t hwf hf) hf hpd
        cases hlc : lookupChain (ensureDir base st path.parent).2
            (ensureDir base st path.parent).1 with
        | none => exact ⟨ea, fun q hq => eb q hq⟩
        | some ce =>
          simp only []
          cases hfi : ce.kids.findIdx? (fun c => childPath c == path) with
          | none =>
            have happ := stInv_appendTree fs base (ensureDir base st path.parent).2
              (ensureDir base st path.parent).1 dtree ea hdfc
              (by
                intro hcon
                rw [hdd] at hcon
                exact absurd hcon (by decide))
            exact ⟨happ.1, fun q hq => by rw [happ.2]; exact eb q hq⟩
          | some i =>
            simp only []
            cases hgi : ce.kids.get? i with
            | none => exact ⟨ea, fun q hq => eb q hq⟩
            | some child =>
              cases child with
              | ref qref =>
                simp only []
                have hm := stInv_appendTrees fs base (ensureDir base st path.parent).2 qref
                  ((dtree.children.filter (fun c =>
                    !((match lookupChain (ensureDir base st path.parent).2 qref with
                       | some ceq => ceq.kids.map childPath
                       | none => []).contains c.path))).map Child.tree)
                  ea
                  (kids_cond_of_subset fs dtree _
                    (fun c hc => List.mem_of_mem_filter hc) hdfc hdfsok)
                exact ⟨hm.1, fun q hq => by rw [hm.2]; exact eb q hq⟩
              | tree t0 =>
                simp only []
                obtain ⟨ht0fc, ht0dirImp⟩ := ea.2.2.2 ce (lookupChain_mem _ _ ce hlc).1 t0
                  (List.get?_mem hgi)
                have ht0path : t0.path = path := by
                  have hp := findIdx_get_pred (fun c => childPath c == path)
                    ce.kids i (Child.tree t0) hfi hgi
                  simp [childPath] at hp
                  exact hp
                have ht0isdir : t0.is_dir = true := by
                  by_cases hd0 : t0.is_dir = true
                  · exact hd0
                  · have hiF := ht0dirImp (by revert hd0; cases t0.is_dir <;> simp)
                    rw [ht0path, hfisdirT] at hiF
                    exact absurd hiF (by decide)
                have hm := stInv_mergeSet fs base (ensureDir base st path.parent).2
                  (ensureDir base st path.parent).1 ce i t0
                  (.mk t0.name t0.path t0.relative_path t0.is_dir t0.size t0.modified
                    t0.content (t0.children ++ dtree.children.filter (fun c =>
                      !((t0.children.map FileNode.path).contains c.path))))
                  ea hlc hgi
                  (filesChildless_mergeNode t0 _ ht0isdir ht0fc
                    (fun c hc => filesChildless_children dtree hdfc c
                      (List.mem_of_mem_filter hc)))
                  (by
                    intro hcon
                    have hcon2 : t0.is_dir = false := hcon
                    rw [ht0isdir] at hcon2
                    exact absurd hcon2 (by decide))
                exact ⟨hm.1, fun q hq => by rw [hm.2]; exact eb q hq⟩

/-- The seeded state of `inspect` (the virtual root node only) satisfies the
state invariant. -/
theorem stInv_init (fs : FS) (base : APath) :
    stInv fs base ⟨[⟨base, ".", ".", []⟩]⟩ := by
  refine ⟨?_, ?_, ?_, ?_⟩
  · simp [chainKeys]
  · simp [chainKeys]
  · intro ce hce hne
    simp at hce
    subst hce
    exact absurd rfl hne
  · intro ce hce t ht
    simp at hce
    subst hce
    simp at ht

/-- The whole `for path in paths` loop preserves the state invariant and
never drops a cached key. -/
theorem foldl_inspectStep_inv (I : Inspector) (fs : FS) (base : APath)
    (gg : Option (APath × List String)) (hwf : FS.wf fs = true) :
    ∀ (paths : List APath) (st : InspState), stInv fs base st →
      stInv fs base (paths.foldl (inspectStep I fs base gg) st) ∧
      ∀ q ∈ chainKeys st, q ∈ chainKeys (paths.foldl (inspectStep I fs base gg) st) := by
  intro paths
  induction paths with
  | nil => intro st h; exact ⟨h, fun q hq => hq⟩
  | cons p rest ih =>
    intro st h
    rw [List.foldl_cons]
    obtain ⟨h1, h2⟩ := inspectStep_stInv I fs base gg st p hwf h
    obtain ⟨h3, h4⟩ := ih _ h1
    exact ⟨h3, fun q hq => h4 q (h2 q hq)⟩

/-- Materialized chain trees keep file nodes childless (every tree kid the
invariant tracks does, and synthesized directory nodes are directories). -/
theorem toTree_filesChildless (fs : FS) (base : APath) (st : InspState)
    (h : stInv fs base st) :
    ∀ (fuel : Nat) (p : APath), filesChildless (toTree st fuel p) = true := by
  intro fuel
  induction fuel with
  | zero => intro p; rfl
  | succ f ih =>
    intro p
    rw [toTree]
    cases hl : lookupChain st p with
    | none => rfl
    | some ce =>
      simp only []
      rw [filesChildless]
      simp only [Bool.true_or, Bool.true_and]
      refine filesChildlessList_of_forall _ ?_
      intro c hc
      rw [List.mem_map] at hc
      obtain ⟨k, hk, hke⟩ := hc
      cases k with
      | ref q =>
        rw [← hke]
        exact ih q
      | tree t =>
        rw [← hke]
        exact (h.2.2.2 ce (lookupChain_mem st p ce hl).1 t hk).1

theorem allNodes_trans : ∀ (t n x : FileNode), n ∈ allNodes t → x ∈ allNodes n →
    x ∈ allNodes t := by
  intro t
  induction t using FileNode.indOn with
  | h nm p r d s m c kids ih =>
    intro n x hn hx
    rw [allNodes] at hn ⊢
    rw [List.mem_cons] at hn
    rcases hn with rfl | hn
    · rw [allNodes] at hx
      exact hx
    · rw [mem_allNodesList] at hn
      obtain ⟨t2, ht2, hn2⟩ := hn
      refine List.mem_cons_of_mem _ ?_
      rw [mem_allNodesList]
      exact ⟨t2, ht2, ih t2 ht2 n x hn2 hx⟩

theorem listPre_take_take (l : List String) (a b : Nat) (hab : a ≤ b) :
    listPre (l.take a) (l.take b) = true := by
  have h2 : (l.take b).take a = l.take a := by
    rw [List.take_take, Nat.min_eq_left hab]
  rw [← h2]
  exact listPre_take _ _

theorem listPre_base_take (xs ys : List String) (j : Nat) (h : listPre xs ys = true) :
    listPre xs (ys.take (xs.length + j)) = true := by
  have hx : xs = ys.take xs.length := listPre_eq_take xs ys h
  have h2 : listPre (ys.take xs.length) (ys.take (xs.length + j)) = true :=
    listPre_take_take ys xs.length (xs.length + j) (Nat.le_add_right _ _)
  rw [← hx] at h2
  exact h2

/-- A cached key strictly below the base sits at most `chain.length` levels
under it: the whole prefix chain from the base down to the key is cached,
and cache keys are unique. -/
theorem chain_depth_bound (fs : FS) (base : APath) (st : InspState)
    (h : stInv fs base st) (q : APath) (hq : q ∈ chainKeys st)
    (hsu : strictUnder base q = true) :
    q.parts.length - base.parts.length ≤ st.chain.length := by
  have hbl : base.parts.length < q.parts.length := by
    rw [strictUnder, Bool.and_eq_true] at hsu
    simpa using hsu.2
  have hpre : listPre base.parts q.parts = true := by
    rw [strictUnder, Bool.and_eq_true] at hsu
    exact hsu.1
  have hbase : base.parts = q.parts.take base.parts.length := listPre_eq_take _ _ hpre
  set d := q.parts.length - base.parts.length with hd
  have hL : ((List.range (d + 1)).map
      (fun j => (⟨q.parts.take (base.parts.length + j)⟩ : APath))).Nodup := by
    refine List.Nodup.map_on ?_ (List.nodup_range _)
    intro j hj j2 hj2 hEq
    rw [List.mem_range] at hj hj2
    have e1 := congrArg (fun a : APath => a.parts.length) hEq
    simp only [List.length_take] at e1
    omega
  have hsub : ∀ x ∈ (List.range (d + 1)).map
      (fun j => (⟨q.parts.take (base.parts.length + j)⟩ : APath)), x ∈ chainKeys st := by
    intro x hx
    rw [List.mem_map] at hx
    obtain ⟨j, hj, rfl⟩ := hx
    rw [List.mem_range] at hj
    by_cases hj0 : j = 0
    · subst hj0
      rw [Nat.add_zero, ← hbase]
      exact h.2.1
    · refine stInv_closure fs base st h q.parts.length q (le_refl _) hq _ ?_ ?_
      · rw [strictUnder, Bool.and_eq_true]
        refine ⟨listPre_base_take base.parts q.parts j hpre, ?_⟩
        simp only [List.length_take, decide_eq_true_eq]
        omega
      · exact listPre_take _ _
  have hsubp := List.Nodup.subperm hL hsub
  have hlen := hsubp.length_le
  simp only [List.length_map, List.length_range] at hlen
  rw [chainKeys, List.length_map] at hlen
  omega

/-- Every cached key is reachable from the base through the parent
reference links, so its chain node appears in the materialized tree given
enough fuel. -/
theorem toTree_reach (fs : FS) (base : APath) (st : InspState) (h : stInv fs base st) :
    ∀ (n : Nat) (q : APath), q.parts.length ≤ n → q ∈ chainKeys st →
      ∀ fuel : Nat,
        toTree st fuel q ∈
          allNodes (toTree st (fuel + (q.parts.length - base.parts.length)) base) := by
  intro n
  induction n with
  | zero =>
    intro q hql hq fuel
    by_cases heq : q = base
    · subst heq
      simp only [Nat.sub_self, Nat.add_zero]
      exact self_mem_allNodes _
    · exfalso
      rw [chainKeys, List.mem_map] at hq
      obtain ⟨ce, hcem, hcek⟩ := hq
      obtain ⟨hsu, -⟩ := h.2.2.1 ce hcem (by rw [hcek]; exact heq)
      rw [hcek] at hsu
      rw [strictUnder, Bool.and_eq_true] at hsu
      have hblt : base.parts.length < q.parts.length := by simpa using hsu.2
      omega
  | succ n2 ih =>
    intro q hql hq fuel
    by_cases heq : q = base
    · subst heq
      simp only [Nat.sub_self, Nat.add_zero]
      exact self_mem_allNodes _
    · rw [chainKeys, List.mem_map] at hq
      obtain ⟨ce, hcem, hcek⟩ := hq
      obtain ⟨hsu, ce2, hce2m, hce2k, hce2ref⟩ := h.2.2.1 ce hcem (by rw [hcek]; exact heq)
      rw [hcek] at hsu hce2k hce2ref
      rw [strictUnder, Bool.and_eq_true] at hsu
      have hblt : base.parts.length < q.parts.length := by simpa using hsu.2
      have hparlen : q.parent.parts.length = q.parts.length - 1 := by
        unfold APath.parent
        simp
      have hpar : q.parent ∈ chainKeys st := by
        rw [← hce2k]
        exact List.mem_map_of_mem ChainEntry.key hce2m
      have hih := ih q.parent (by omega) hpar (fuel + 1)
      have harith : (fuel + 1) + (q.parent.parts.length - base.parts.length)
          = fuel + (q.parts.length - base.parts.length) := by omega
      rw [harith] at hih
      have hlkpar : lookupChain st q.parent = some ce2 := by
        have hx := lookupChain_of_mem st h.1 ce2 hce2m
        rw [hce2k] at hx
        exact hx
      have hchild : toTree st fuel q ∈ (toTree st (fuel + 1) q.parent).children := by
        rw [toTree, hlkpar]
        simp only [FileNode.children]
        rw [List.mem_map]
        exact ⟨Child.ref q, hce2ref, rfl⟩
      have hmemn : toTree st fuel q ∈ allNodes (toTree st (fuel + 1) q.parent) := by
        rw [mem_allNodes_iff]
        refine Or.inr ?_
        rw [mem_allNodesList]
        exact ⟨_, hchild, self_mem_allNodes _⟩
      exact allNodes_trans _ _ _ hih hmemn

/-- Head fields of a materialized chain node: the synthesized directory
nodes carry the cache key as path, are directories, and never carry size,
modified time or content. -/
theorem toTree_head (st : InspState) (q : APath) (f : Nat) (hq : q ∈ chainKeys st) :
    (toTree st (f + 1) q).path = q ∧ (toTree st (f + 1) q).is_dir = true ∧
    (toTree st (f + 1) q).size = none ∧ (toTree st (f + 1) q).modified = none ∧
    (toTree st (f + 1) q).content = none := by
  rw [toTree]
  cases hl : lookupChain st q with
  | none =>
    exfalso
    have hx := (lookupChain_isSome_iff st q).mpr hq
    rw [hl] at hx
    simp at hx
  | some ce =>
    simp [FileNode.path, FileNode.is_dir, FileNode.size, FileNode.modified, FileNode.content]

/-- The recursive sort keeps every node of the tree, up to re-sorting of its
children: any node has a counterpart with the same head fields. -/
theorem allNodes_sort_sig : ∀ (t : FileNode), ∀ n ∈ allNodes t,
    ∃ n2 ∈ allNodes (sortChildrenRec t), n2.sig = n.sig := by
  intro t
  induction t using FileNode.indOn with
  | h nm p r d s m c kids ih =>
    intro n hn
    rw [allNodes, List.mem_cons] at hn
    rcases hn with rfl | hn
    · exact ⟨sortChildrenRec _, self_mem_allNodes _, sortChildrenRec_sig _⟩
    · rw [mem_allNodesList] at hn
      obtain ⟨t2, ht2, hn2⟩ := hn
      obtain ⟨n2, hn2m, hn2s⟩ := ih t2 ht2 n hn2
      rw [sortChildrenRec_mk]
      cases hd : d with
      | false =>
        rw [if_neg Bool.false_ne_true]
        refine ⟨n, ?_, rfl⟩
        rw [allNodes]
        refine List.mem_cons_of_mem _ ?_
        rw [mem_allNodesList]
        exact ⟨t2, ht2, hn2⟩
      | true =>
        rw [if_pos rfl]
        refine ⟨n2, ?_, hn2s⟩
        rw [allNodes]
        refine List.mem_cons_of_mem _ ?_
        rw [mem_allNodesList]
        refine ⟨sortChildrenRec t2, ?_, hn2m⟩
        rw [mem_stableSort, sortNodesList_eq_map]
        exact List.mem_map_of_mem _ ht2

/-- Processing an existing, non-ignored input file caches every directory
on the chain from the base down to the file's parent. -/
theorem inspectStep_materializes (I : Inspector) (fs : FS) (base : APath)
    (gg : Option (APath × List String)) (st : InspState) (p : APath)
    (b : List Nat) (tl : Option (List String)) (sz : Nat) (mt : String)
    (h : stInv fs base st)
    (hf : fs.find p = some (.file b tl sz mt))
    (hnig : (buildMatcher I fs gg p false).is_ignored p = false)
    (hunder : strictUnder base p = true) :
    ∀ q : APath, strictUnder base q = true → listPre q.parts p.parent.parts = true →
      q ∈ chainKeys (inspectStep I fs base gg st p) := by
  intro q hq hqp
  unfold inspectStep
  rw [hf]
  simp only []
  obtain ⟨ea, eb, ed, ee, ef⟩ := ensureDir_master fs base st p.parent h
  have hb : listPre base.parts p.parent.parts = true := by
    rw [strictUnder, Bool.and_eq_true] at hunder
    have h2 : base.parts.length < p.parts.length := by simpa using hunder.2
    unfold APath.parent
    exact listPre_dropLast _ _ hunder.1 h2
  have hqk := ee hb q hq hqp
  rw [if_pos (show (FSTree.file b tl sz mt).isDirT = false from rfl)]
  rw [if_neg (show ¬ (buildMatcher I fs gg p
      (FSTree.file b tl sz mt).isDirT).is_ignored p = true by
    rw [show (FSTree.file b tl sz mt).isDirT = false from rfl, hnig]
    decide)]
  cases hlc : lookupChain (ensureDir base st p.parent).2 (ensureDir base st p.parent).1 with
  | none => exact hqk
  | some ce =>
    simp only []
    by_cases hdup : (ce.kids.any (fun c => childPath c == p)) = true
    · rw [if_pos hdup]
      exact hqk
    · rw [if_neg hdup]
      rw [chainKeys_appendKid]
      exact hqk

/-- C3: every directory node anywhere in a forest returned by `inspect` has
its children sorted: directories before files, then case-insensitively
ascending names — the ordering is re-applied to the whole merged tree after
all merges (`_sort_children_recursive` on the virtual root). -/
theorem inspect_children_sorted (I : Inspector) (fs : FS) (base : APath)
    (gg : Option (APath × List String)) (paths : List APath)
    (hwf : FS.wf fs = true) :
    ∀ n ∈ forestNodes (inspect I fs base gg paths), n.is_dir = true →
      n.children.Pairwise specLE := by
  unfold inspect
  simp only []
  intro n hn hdir
  have hinv : stInv fs base
      (paths.foldl (inspectStep I fs base gg) ⟨[⟨base, ".", ".", []⟩]⟩) :=
    (foldl_inspectStep_inv I fs base gg hwf paths _ (stInv_init fs base)).1
  have hfc := toTree_filesChildless fs base _ hinv
    ((paths.foldl (inspectStep I fs base gg) ⟨[⟨base, ".", ".", []⟩]⟩).chain.length + 1) base
  have hmem : n ∈ allNodes (sortChildrenRec (toTree
      (paths.foldl (inspectStep I fs base gg) ⟨[⟨base, ".", ".", []⟩]⟩)
      ((paths.foldl (inspectStep I fs base gg) ⟨[⟨base, ".", ".", []⟩]⟩).chain.length + 1)
      base)) := by
    rw [mem_allNodes_iff]
    exact Or.inr hn
  have hpw := sorted_after_sortChildrenRec _ hfc n hmem hdir
  exact List.Pairwise.imp (fun hab => (nodeLE_iff_specLE _ _).mp hab) hpw

/-- C10 (amended): for an existing input file strictly below the invocation
base whose path the matcher does not ignore, every directory strictly
between the base and the file's parent (inclusive) is materialized in the
returned forest as a synthesized directory node with no size, modified time
or content — no hidden-name policy, directory blocklist or ignore rule is
applied to these intermediate directories. -/
theorem inspect_chain_materialization (I : Inspector) (fs : FS) (base : APath)
    (gg : Option (APath × List String)) (paths : List APath) (p : APath)
    (b : List Nat) (tl : Option (List String)) (sz : Nat) (mt : String)
    (hwf : FS.wf fs = true)
    (hp : p ∈ paths)
    (hf : fs.find p = some (.file b tl sz mt))
    (hnig : (buildMatcher I fs gg p false).is_ignored p = false)
    (hunder : strictUnder base p = true)
    (q : APath) (hq : strictUnder base q = true)
    (hqp : listPre q.parts p.parent.parts = true) :
    ∃ n ∈ forestNodes (inspect I fs base gg paths),
      n.path = q ∧ n.is_dir = true ∧ n.size = none ∧ n.modified = none ∧
      n.content = none := by
  obtain ⟨s, t2, rfl⟩ := List.append_of_mem hp
  unfold inspect
  simp only []
  set st0 : InspState := ⟨[⟨base, ".", ".", []⟩]⟩ with hst0
  have hinv1 := (foldl_inspectStep_inv I fs base gg hwf s st0 (stInv_init fs base)).1
  have hstep := inspectStep_stInv I fs base gg
    (s.foldl (inspectStep I fs base gg) st0) p hwf hinv1
  have hmat := inspectStep_materializes I fs base gg
    (s.foldl (inspectStep I fs base gg) st0) p b tl sz mt hinv1 hf hnig hunder q hq hqp
  have hrest := foldl_inspectStep_inv I fs base gg hwf t2
    (inspectStep I fs base gg (s.foldl (inspectStep I fs base gg) st0) p) hstep.1
  have hfoldeq : (s ++ p :: t2).foldl (inspectStep I fs base gg) st0
      = t2.foldl (inspectStep I fs base gg)
          (inspectStep I fs base gg (s.foldl (inspectStep I fs base gg) st0) p) := by
    rw [List.foldl_append, List.foldl_cons]
  set stF := (s ++ p :: t2).foldl (inspectStep I fs base gg) st0 with hstF
  have hinvF : stInv fs base stF := by rw [hfoldeq]; exact hrest.1
  have hqkF : q ∈ chainKeys stF := by rw [hfoldeq]; exact hrest.2 q hmat
  have hblq : base.parts.length < q.parts.length := by
    rw [strictUnder, Bool.and_eq_true] at hq
    simpa using hq.2
  have hdb := chain_depth_bound fs base stF hinvF q hqkF hq
  have hreach := toTree_reach fs base stF hinvF q.parts.length q (le_refl _) hqkF
    ((stF.chain.length - (q.parts.length - base.parts.length)) + 1)
  have harith : ((stF.chain.length - (q.parts.length - base.parts.length)) + 1)
      + (q.parts.length - base.parts.length) = stF.chain.length + 1 := by omega
  rw [harith] at hreach
  have hhead := toTree_head stF q
    (stF.chain.length - (q.parts.length - base.parts.length)) hqkF
  obtain ⟨n2, hn2m, hn2s⟩ := allNodes_sort_sig _ _ hreach
  simp only [FileNode.sig, Prod.mk.injEq] at hn2s
  obtain ⟨-, hn2path, -, hn2dir, hn2size, hn2mod, hn2cont⟩ := hn2s
  rw [hhead.1] at hn2path
  rw [hhead.2.1] at hn2dir
  rw [hhead.2.2.1] at hn2size
  rw [hhead.2.2.2.1] at hn2mod
  rw [hhead.2.2.2.2] at hn2cont
  rw [mem_allNodes_iff] at hn2m
  rcases hn2m with rfl | hn2m
  · exfalso
    have hrootsig := sortChildrenRec_sig (toTree stF (stF.chain.length + 1) base)
    simp only [FileNode.sig, Prod.mk.injEq] at hrootsig
    have hbpath := (toTree_head stF base stF.chain.length hinvF.2.1).1
    have hqb : q = base := by
      rw [← hn2path, hrootsig.2.1]
      exact hbpath
    rw [hqb] at hblq
    omega
  · exact ⟨n2, hn2m, hn2path, hn2dir, hn2size, hn2mod, hn2cont⟩

/-- C2 (amended): with a configured max depth `k`, walking an input
directory creates no directory node at depth greater than `k` and no node
at all at depth greater than `k + 1`: the guard in `_process_dir` prunes
directories below the limit, but file entries one level past it are still
created, because only the recursive directory call re-checks the depth. -/
theorem processDir_depth_bound (I : Inspector) (fs : FS) (base : APath)
    (t : FSTree) (p : APath) (m : GitignoreMatcher) (node : FileNode) (k : Nat)
    (hk : I.max_depth = some k)
    (h : (processDir I fs base t p m 0).1 = some node) :
    ∀ x ∈ nodesWithDepth node 0, x.2 ≤ k + 1 ∧ (x.1.is_dir = true → x.2 ≤ k) :=
  (processDir_walkProps I fs base t p m 0 node h).2.2.2.2.2 k hk

/-- C4: `is_ignored` returns `false` for every path not lexically under the
matcher's root; for a path under the root it equals the spec's running-flag
fold over the layers in addition order (layers whose base is not an
ancestor of the path skipped), each match setting the flag to the negation
of the rule's negated mark. -/
theorem is_ignored_contract (m : GitignoreMatcher) (p : APath) :
    m.is_ignored p = isIgnoredSpec m p ∧
    (listPre m.root_path.parts p.parts = false → m.is_ignored p = false) := by
  constructor
  · unfold GitignoreMatcher.is_ignored isIgnoredSpec
    cases h : listPre m.root_path.parts p.parts with
    | false => simp
    | true => simp [foldl_layerFold_filterMap]
  · intro h
    unfold GitignoreMatcher.is_ignored
    rw [h]
    simp

/-- C5: `_process_file` attempts a read exactly when `read_all` is set or
the file's dotted suffix is allow-listed (case-sensitively); a NUL byte in
the first 1024 bytes keeps content absent even under `read_all`; a
selected, NUL-free, decodable file does get content. -/
theorem processFile_content_policy (I : Inspector) (p base : APath) (bytes : List Nat)
    (textLines : Option (List String)) (sz : Nat) (mtime : String) :
    ((processFile I p base bytes textLines sz mtime).content ≠ none →
      (I.read_all = true ∨ I.extensions.contains (nameSuffix p.name) = true)) ∧
    ((bytes.take 1024).contains 0 = true →
      (processFile I p base bytes textLines sz mtime).content = none) ∧
    ((I.read_all = true ∨ I.extensions.contains (nameSuffix p.name) = true) →
      (bytes.take 1024).contains 0 = false →
      textLines.isSome = true →
      (processFile I p base bytes textLines sz mtime).content ≠ none) := by
  have hc : (processFile I p base bytes textLines sz mtime).content =
      (if I.should_read_content p then readContentOpt I bytes textLines else none) := rfl
  refine ⟨?_, ?_, ?_⟩
  · intro hne
    rw [hc] at hne
    by_cases hs : I.should_read_content p = true
    · unfold Inspector.should_read_content at hs
      by_cases hr : I.read_all = true
      · exact Or.inl hr
      · rw [if_neg hr] at hs
        exact Or.inr hs
    · rw [if_neg hs] at hne
      exact absurd rfl hne
  · intro hnul
    rw [hc]
    by_cases hs : I.should_read_content p = true
    · rw [if_pos hs]
      unfold readContentOpt
      rw [if_pos hnul]
    · rw [if_neg hs]
  · intro hsel hnul hsome
    rw [hc]
    have hs : I.should_read_content p = true := by
      unfold Inspector.should_read_content
      rcases hsel with hr | he
      · rw [if_pos hr]
      · by_cases hr : I.read_all = true
        · rw [if_pos hr]
        · rw [if_neg hr]
          exact he
    rw [if_pos hs]
    unfold readContentOpt
    rw [if_neg (by rw [hnul]; decide)]
    cases textLines with
    | none => simp at hsome
    | some lines => simp

/-- C6: on a successful decode the stored content is the concatenation of
the first `head` lines when `head > 0`, else of the last `tail` lines when
`tail > 0`, else of all lines; over-requesting returns all lines without
error. -/
theorem readContent_slicing (I : Inspector) (bytes : List Nat) (lines : List String)
    (hbin : (bytes.take 1024).contains 0 = false) :
    (I.head > 0 → readContentOpt I bytes (some lines) =
      some (String.join (lines.take I.head))) ∧
    (I.head = 0 → I.tail > 0 → readContentOpt I bytes (some lines) =
      some (String.join (lines.drop (lines.length - I.tail)))) ∧
    (I.head = 0 → I.tail = 0 → readContentOpt I bytes (some lines) =
      some (String.join lines)) ∧
    (I.head > 0 → lines.length ≤ I.head → readContentOpt I bytes (some lines) =
      some (String.join lines)) ∧
    (I.head = 0 → I.tail > 0 → lines.length ≤ I.tail →
      readContentOpt I bytes (some lines) = some (String.join lines)) := by
  have hbase : readContentOpt I bytes (some lines) =
      some (String.join (
        if I.head > 0 then lines.take I.head
        else if I.tail > 0 then lines.drop (lines.length - I.tail)
        else lines)) := by
    unfold readContentOpt
    rw [if_neg (by rw [hbin]; decide)]
  refine ⟨?_, ?_, ?_, ?_, ?_⟩
  · intro hh
    rw [hbase, if_pos hh]
  · intro hh ht
    rw [hbase, if_neg (by omega), if_pos ht]
  · intro hh ht
    rw [hbase, if_neg (by omega), if_neg (by omega)]
  · intro hh hlen
    rw [hbase, if_pos hh, List.take_of_length_le hlen]
  · intro hh ht hlen
    rw [hbase, if_neg (by omega), if_pos ht]
    have hz : lines.length - I.tail = 0 := by omega
    rw [hz, List.drop_zero]

/-- C7 (amended): with hidden-inclusion disabled, the recursive walk creates
no node whose name starts with '.' except ones named exactly ".gitignore";
input paths themselves and the synthesized parent-chain directories are not
subject to this policy. -/
theorem processDir_hidden_policy (I : Inspector) (fs : FS) (base : APath)
    (t : FSTree) (p : APath) (m : GitignoreMatcher) (depth : Nat) (node : FileNode)
    (hI : I.include_hidden = false)
    (h : (processDir I fs base t p m depth).1 = some node) :
    ∀ n ∈ allNodesList node.children, headIs '.' n.name = true → n.name = ".gitignore" :=
  fun n hn hh => ((processDir_walkProps I fs base t p m depth node h).2.2.2.2.1 n hn).1 hI hh

/-- C8 (amended): the recursive walk creates no directory node whose name is
in the directory blocklist (hence nothing below one, since descendants only
appear inside their walked parent); an input path naming a blocklisted
directory is itself still walked, because `inspect` never consults the
blocklist. -/
theorem processDir_blocklist (I : Inspector) (fs : FS) (base : APath)
    (t : FSTree) (p : APath) (m : GitignoreMatcher) (depth : Nat) (node : FileNode)
    (h : (processDir I fs base t p m depth).1 = some node) :
    ∀ n ∈ allNodesList node.children, n.is_dir = true →
      I.ignore_dirs.contains n.name = false :=
  fun n hn hd => ((processDir_walkProps I fs base t p m depth node h).2.2.2.2.1 n hn).2 hd

/-- C1 is refuted by the code: with the nested input paths `ws/a` and
`ws/a/b` the merged forest holds two distinct nodes with absolute path
`ws/a` (the walked subtree and a separately synthesized chain directory),
because walked directories are never registered in the parent-chain cache. -/
theorem inspect_duplicate_absolute_path :
    ((forestNodes (inspect plainInspector fsNested ⟨[]⟩ none
      [⟨["ws", "a"]⟩, ⟨["ws", "a", "b"]⟩])).countP
        (fun n => n.path == ⟨["ws", "a"]⟩)) = 2 := by decide

/-- C2 counterexample: with max depth 0 the walk still creates the file
node `f.txt` at depth 1 below the input directory. -/
theorem processDir_depth_leak :
    (match (processDir depth0Inspector fsWsFile ⟨[]⟩ wsFileTree ⟨["ws"]⟩ wsMatcher 0).1 with
      | some node => (nodesWithDepth node 0).any (fun x => decide (0 < x.2))
      | none => false) = true := by decide

theorem processDir_depth_bound_witness :
    (((.mk "f.txt" ⟨["ws", "f.txt"]⟩ "ws/f.txt" false none none none [] : FileNode), 1) :
      FileNode × Nat).2 ≤ 0 + 1 ∧
    ((((.mk "f.txt" ⟨["ws", "f.txt"]⟩ "ws/f.txt" false none none none [] : FileNode), 1) :
      FileNode × Nat).1.is_dir = true →
      (((.mk "f.txt" ⟨["ws", "f.txt"]⟩ "ws/f.txt" false none none none [] : FileNode), 1) :
        FileNode × Nat).2 ≤ 0) :=
  processDir_depth_bound depth0Inspector fsWsFile ⟨[]⟩ wsFileTree ⟨["ws"]⟩ wsMatcher
    wsFileNode 0 rfl rfl
    (.mk "f.txt" ⟨["ws", "f.txt"]⟩ "ws/f.txt" false none none none [], 1)
    (List.mem_cons_of_mem _ (List.mem_cons_self _ _))

theorem inspect_children_sorted_witness :
    wsFileNode.children.Pairwise specLE :=
  inspect_children_sorted plainInspector fsWsFile ⟨[]⟩ none [⟨["ws"]⟩] (by decide)
    wsFileNode (List.mem_cons_self _ _) rfl

theorem is_ignored_contract_witness :
    wsMatcher.is_ignored ⟨["other", "x"]⟩ = false :=
  (is_ignored_contract wsMatcher ⟨["other", "x"]⟩).2 (by decide)

theorem processFile_content_policy_witness :
    (processFile readAllInspector ⟨["ws", "x.bin"]⟩ ⟨[]⟩ [0, 1] none 2 "t").content =
      none :=
  (processFile_content_policy readAllInspector ⟨["ws", "x.bin"]⟩ ⟨[]⟩ [0, 1] none 2
    "t").2.1 (by decide)

theorem readContent_slicing_witness :
    readContentOpt head3Inspector [104] (some ["a\n", "b\n", "c\n", "d\n"]) =
      some "a\nb\nc\n" :=
  (readContent_slicing head3Inspector [104] ["a\n", "b\n", "c\n", "d\n"] (by decide)).1
    (by decide)

/-- C7 counterexample: a hidden directory given directly as an input path
appears in the forest even with hidden-inclusion disabled. -/
theorem inspect_hidden_input_leak :
    ((forestNodes (inspect plainInspector fsWsHidden ⟨[]⟩ none
      [⟨["ws", ".hid"]⟩])).map FileNode.name).contains ".hid" = true := by decide

theorem processDir_hidden_policy_witness :
    (FileNode.mk ".gitignore" ⟨["ws", ".gitignore"]⟩ "ws/.gitignore" false none none none
      []).name = ".gitignore" :=
  processDir_hidden_policy plainInspector fsWsGitignore ⟨[]⟩ wsGitignoreTree ⟨["ws"]⟩
    wsMatcher 0 wsGitignoreNode rfl rfl
    (.mk ".gitignore" ⟨["ws", ".gitignore"]⟩ "ws/.gitignore" false none none none [])
    (List.mem_cons_self _ _) rfl

/-- C8 counterexample: a blocklisted-name directory given directly as an
input path appears in the forest. -/
theorem inspect_blocklisted_input_leak :
    ((forestNodes (inspect blockNmInspector fsWsNm ⟨[]⟩ none
      [⟨["ws", "nm"]⟩])).map FileNode.name).contains "nm" = true := by decide

theorem processDir_blocklist_witness :
    blockNmInspector.ignore_dirs.contains
      (FileNode.mk "sub" ⟨["ws", "sub"]⟩ "ws/sub" true none none none []).name = false :=
  processDir_blocklist blockNmInspector fsWsSub ⟨[]⟩ wsSubTree ⟨["ws"]⟩ wsMatcher 0
    wsSubNode rfl
    (.mk "sub" ⟨["ws", "sub"]⟩ "ws/sub" true none none none [])
    (List.mem_cons_self _ _) rfl

theorem inspect_chain_materialization_witness :
    ∃ n ∈ forestNodes (inspect blockNmInspector fsDeepHidden ⟨[]⟩ none
        [⟨[".hid", "nm", "f.txt"]⟩]),
      n.path = ⟨[".hid", "nm"]⟩ ∧ n.is_dir = true ∧ n.size = none ∧ n.modified = none ∧
      n.content = none :=
  inspect_chain_materialization blockNmInspector fsDeepHidden ⟨[]⟩ none
    [⟨[".hid", "nm", "f.txt"]⟩] ⟨[".hid", "nm", "f.txt"]⟩ [104] (some ["x\n"]) 2 "t"
    (by decide) (by decide) rfl (by decide) (by decide) ⟨[".hid", "nm"]⟩ (by decide)
    (by decide)

/-- C10 counterexample to the unqualified claim: when the input file itself
is matched by an ignore rule, the loop skips it before the parent chain is
ensured, so no ancestor (here `d`) is materialized at all. -/
theorem ignored_input_not_materialized :
    ((forestNodes (inspect logIgnoreInspector fsLog ⟨[]⟩ none [⟨["d", "x.log"]⟩])).map
      FileNode.path).contains ⟨["d"]⟩ = false := by decide

/-! ## Two-run determinism: enumeration permutations of a snapshot.

The only effect the OS enumeration order has on `inspect` is the order of
the `(String × FSTree)` entry lists inside the snapshot.  `FSPerm` relates
two snapshots of the same tree that differ only by such reorderings:
files are identical, and a directory's entries are pointwise related to an
intermediate list that is a permutation of the other side's entries (the
same shape `TreePerm` uses, which keeps the nested induction simple). -/

inductive FSPerm : FSTree → FSTree → Prop where
  | file : ∀ (b : List Nat) (tl : Option (List String)) (sz : Nat) (mt : String),
      FSPerm (.file b tl sz mt) (.file b tl sz mt)
  | dir : ∀ (es1 l es2 : List (String × FSTree)) (sz : Nat) (mt : String),
      es1.length = l.length →
      (∀ (i : Nat) (h1 : i < es1.length) (h2 : i < l.length),
        (es1.get ⟨i, h1⟩).1 = (l.get ⟨i, h2⟩).1) →
      (∀ (i : Nat) (h1 : i < es1.length) (h2 : i < l.length),
        FSPerm (es1.get ⟨i, h1⟩).2 (l.get ⟨i, h2⟩).2) →
      l.Perm es2 →
      FSPerm (.dir es1 sz mt) (.dir es2 sz mt)

theorem fsPerm_szOf {t1 t2 : FSTree} (h : FSPerm t1 t2) : t1.szOf = t2.szOf := by
  cases h <;> rfl

theorem fsPerm_mtimeOf {t1 t2 : FSTree} (h : FSPerm t1 t2) : t1.mtimeOf = t2.mtimeOf := by
  cases h <;> rfl

/-! With gitignore processing off the matcher is pure state: the walk never
modifies it, so the per-entry processing is a fixed function of the entry
and `_process_dir`'s children are a `filterMap` over the entry list. -/

mutual
theorem processDir_matcher_const (I : Inspector) (fs : FS) (base : APath)
    (hng : I.use_gitignore = false) :
    ∀ (t : FSTree) (p : APath) (m : GitignoreMatcher) (depth : Nat),
      (processDir I fs base t p m depth).2 = m
  | t, p, m, depth => by
    rw [processDir]
    by_cases hg : (match I.max_depth with
        | some k => decide (depth > k)
        | none => false) = true
    · rw [if_pos hg]
    · rw [if_neg hg]
      by_cases hig : m.is_ignored p = true
      · rw [if_pos hig]
      · rw [if_neg hig]
        simp only []
        rw [if_neg (by rw [hng]; decide)]
        cases t with
        | file b tl sz mt => rfl
        | dir es sz mt =>
          simp only []
          exact processEntries_matcher_const I fs base hng es p m depth

theorem processEntries_matcher_const (I : Inspector) (fs : FS) (base : APath)
    (hng : I.use_gitignore = false) :
    ∀ (es : List (String × FSTree)) (pp : APath) (m : GitignoreMatcher) (depth : Nat),
      (processEntries I fs base pp es m depth).2 = m
  | [], pp, m, depth => rfl
  | (name, sub) :: rest, pp, m, depth => by
    rw [processEntries]
    by_cases h1 : (!I.include_hidden && headIs '.' name && name != ".gitignore") = true
    · rw [if_pos h1]
      exact processEntries_matcher_const I fs base hng rest pp m depth
    · rw [if_neg h1]
      by_cases h2 : (sub.isDirT && I.ignore_dirs.contains name) = true
      · rw [if_pos h2]
        exact processEntries_matcher_const I fs base hng rest pp m depth
      · rw [if_neg h2]
        by_cases h3 : m.is_ignored (pp.child name) = true
        · rw [if_pos h3]
          exact processEntries_matcher_const I fs base hng rest pp m depth
        · rw [if_neg h3]
          by_cases h4 : sub.isDirT = true
          · rw [if_pos h4]
            simp only []
            rw [processDir_matcher_const I fs base hng sub (pp.child name) m (depth + 1)]
            exact processEntries_matcher_const I fs base hng rest pp m depth
          · rw [if_neg h4]
            simp only []
            exact processEntries_matcher_const I fs base hng rest pp m depth
end

theorem treePerm_sig {t1 t2 : FileNode} (h : TreePerm t1 t2) : t1.sig = t2.sig := by
  cases h with
  | step n p r d s m c kids1 l kids2 => rfl

theorem treePerm_is_dir {t1 t2 : FileNode} (h : TreePerm t1 t2) : t1.is_dir = t2.is_dir := by
  cases h with
  | step n p r d s m c kids1 l kids2 => rfl

/-- Relation between the kid slots of corresponding chain entries of the two
runs: references agree exactly, finished subtrees agree up to `TreePerm`. -/
def childRel : Child → Child → Prop
  | .ref q1, .ref q2 => q1 = q2
  | .tree t1, .tree t2 => TreePerm t1 t2
  | _, _ => False

/-- Kid lists of corresponding chain entries: a sequence of corresponding
single slots and of merge blocks; a block's trees are pointwise related to
an intermediate list that is a permutation of the other side's block, and a
block's absolute paths are pairwise distinct (they come from one walked
directory, filtered against the already-present paths). -/
inductive KidsRel : List Child → List Child → Prop where
  | nil : KidsRel [] []
  | consk : ∀ (c1 c2 : Child) (r1 r2 : List Child), childRel c1 c2 → KidsRel r1 r2 →
      KidsRel (c1 :: r1) (c2 :: r2)
  | blockk : ∀ (b1 lm b2 : List FileNode) (r1 r2 : List Child),
      b1.length = lm.length →
      (∀ (i : Nat) (h1 : i < b1.length) (h2 : i < lm.length),
        TreePerm (b1.get ⟨i, h1⟩) (lm.get ⟨i, h2⟩)) →
      lm.Perm b2 →
      (b1.map FileNode.path).Nodup →
      KidsRel r1 r2 →
      KidsRel (b1.map Child.tree ++ r1) (b2.map Child.tree ++ r2)

/-- Corresponding cache entries of the two runs: identical key and head
data, related kid lists. -/
def entryRel (ce1 ce2 : ChainEntry) : Prop :=
  ce1.key = ce2.key ∧ ce1.name = ce2.name ∧ ce1.relative_path = ce2.relative_path ∧
  KidsRel ce1.kids ce2.kids

inductive ChainsRel : List ChainEntry → List ChainEntry → Prop where
  | nil : ChainsRel [] []
  | cons : ∀ (ce1 ce2 : ChainEntry) (r1 r2 : List ChainEntry), entryRel ce1 ce2 →
      ChainsRel r1 r2 → ChainsRel (ce1 :: r1) (ce2 :: r2)

/-- The two-run state correspondence: the caches are pointwise related (the
cache is appended to in the same deterministic order by both runs). -/
def StRel (st1 st2 : InspState) : Prop := ChainsRel st1.chain st2.chain

theorem chainsRel_keys : ∀ (l1 l2 : List ChainEntry), ChainsRel l1 l2 →
    l1.map ChainEntry.key = l2.map ChainEntry.key := by
  intro l1 l2 h
  induction h with
  | nil => rfl
  | cons ce1 ce2 r1 r2 he hr ih =>
    rw [List.map_cons, List.map_cons, he.1, ih]

theorem stRel_chainKeys (st1 st2 : InspState) (h : StRel st1 st2) :
    chainKeys st1 = chainKeys st2 := chainsRel_keys st1.chain st2.chain h

